import Mathlib

/-!
Verification of the aged-document texture synthesis pipeline and its
deterministic text-layout engine, as implemented by the Python scripts
`generate_altes_dokument.py`, `generate_telegramm_zusammenfassung.py`,
`generate_historisch_inspiriertes_dokument.py` and
`generate_altes_dokument_template.py`.

The layout engine `draw_wrapped` delegates paragraph wrapping to Python's
`textwrap.wrap` with its default configuration (`expand_tabs=True`,
`replace_whitespace=True`, `drop_whitespace=True`, `break_long_words=True`,
`break_on_hyphens=True`, no indents, `max_lines=None`).  We embed that
algorithm faithfully here, specialised to that configuration: whitespace
munging, the `wordsep_re` chunk splitter, the greedy `_wrap_chunks` loop and
`_handle_long_word`.  Character classes are modelled at ASCII fidelity
(`\w`, the letter class `[^\d\W]` and the word-punctuation class of
`textwrap.word_punct`).  Strings are modelled as `List Char`; the mutable
PIL draw surface is modelled as the list of emitted draw commands.
-/

namespace AltesDokument

/-- Python whitespace as used by `textwrap` (`string._whitespace`,
`'\t\n\x0b\x0c\r '`); also the characters stripped by `str.strip()` for the
ASCII inputs handled here. -/
def pyWs (c : Char) : Bool :=
  c == ' ' || c == '\t' || c == '\n' || c == Char.ofNat 11 || c == Char.ofNat 12 || c == '\r'

/-- Python `\w` (`re.UNICODE`), at ASCII fidelity: alphanumerics and `_`. -/
def wordChar (c : Char) : Bool := c.isAlphanum || c == '_'

/-- The `textwrap` letter class `[^\d\W]`: word characters that are not
digits, i.e. letters and `_`. -/
def ltChar (c : Char) : Bool := c.isAlpha || c == '_'

/-- The `textwrap` word-punctuation class `[\w!"'&.,?]`. -/
def wpChar (c : Char) : Bool :=
  wordChar c || c == '!' || c == '"' || c == '\'' || c == '&' || c == '.' || c == ',' || c == '?'

/-- `str.expandtabs(8)`: replace each tab by spaces up to the next multiple
of 8 columns; `\n` and `\r` reset the column counter. -/
def expandTabs : List Char → Nat → List Char
  | [], _ => []
  | c :: rest, col =>
    if c == '\t' then
      let pad := 8 - col % 8
      List.replicate pad ' ' ++ expandTabs rest (col + pad)
    else if c == '\n' || c == '\r' then
      c :: expandTabs rest 0
    else
      c :: expandTabs rest (col + 1)

/-- `TextWrapper._munge_whitespace`: `expandtabs` then translate every
whitespace character to a space. -/
def munge (s : List Char) : List Char :=
  (expandTabs s 0).map (fun c => if pyWs c then ' ' else c)

/-- Length of the maximal run of `'-'` at the head of the list. -/
def dashRun : List Char → Nat
  | '-' :: rest => dashRun rest + 1
  | _ => 0

/-- Lookbehind of the hyphenated-word break of `wordsep_re`, evaluated just
before a candidate `-`:  `(?<=[lt]{2}-)` or `(?<=[lt]-[lt]-)` hold after
consuming that `-`.  `revPre` lists the characters before the `-`, most
recent first. -/
def hyBehind (revPre : List Char) : Bool :=
  (match revPre with
   | x :: y :: _ => ltChar x && ltChar y
   | _ => false) ||
  (match revPre with
   | x :: y :: z :: _ => ltChar x && y == '-' && ltChar z
   | _ => false)

/-- Lookahead `(?=[lt]-?[lt])` of the hyphenated-word break, evaluated on
the characters after the candidate `-`. -/
def hyAhead : List Char → Bool
  | a :: b :: c :: _ => ltChar a && (ltChar b || (b == '-' && ltChar c))
  | a :: b :: [] => ltChar a && ltChar b
  | _ => false

/-- Lookahead `(?=-{2,}\w)` (the em-dash stop of `wordsep_re`): a run of at
least two dashes followed by a word character.  Backtracking inside the
lookahead cannot give up dashes (a dash is not a word character), so the
run is the maximal one. -/
def emAhead (rest : List Char) : Bool :=
  let r := dashRun rest
  decide (2 ≤ r) &&
    (match rest.drop r with
     | d :: _ => wordChar d
     | [] => false)

/-- The lazy word alternative `[^\s]+?(...)` of `wordsep_re`: consume
non-whitespace characters one at a time, stopping at the first position
where one of the three group alternatives matches (a hyphenated-word break,
which also consumes the hyphen; end of word before whitespace or the end of
the string; or an em-dash ahead after word punctuation).  `revAll` lists
every character before the current position, most recent first, and `cnt`
is the number of characters consumed so far (at least 1).  Returns the
chunk and the remaining input. -/
def wordScan (revAll : List Char) (cnt : Nat) : List Char → List Char × List Char
  | [] => ((revAll.take cnt).reverse, [])
  | c :: rs =>
    if pyWs c then ((revAll.take cnt).reverse, c :: rs)
    else if c == '-' && hyBehind revAll && hyAhead rs then
      (((c :: revAll).take (cnt + 1)).reverse, rs)
    else if wpChar (revAll.headD ' ') && emAhead (c :: rs) then
      ((revAll.take cnt).reverse, c :: rs)
    else
      wordScan (c :: revAll) (cnt + 1) rs

/-- Maximal whitespace run at the head: `(ws+, rest)`. -/
def takeWsRun : List Char → List Char × List Char
  | [] => ([], [])
  | c :: rs =>
    if pyWs c then
      let p := takeWsRun rs
      (c :: p.1, p.2)
    else ([], c :: rs)

/-- One pass of `wordsep_re` over the munged text: at each position try, in
the order of the regex alternation, a whitespace run, an em-dash between
words (`(?<=wp)-{2,}(?=\w)`), then the lazy word alternative.  `revPre`
lists the already-consumed characters, most recent first (the regex
lookbehinds may reach across chunk boundaries).  The fuel is an upper bound
on the number of chunks; every chunk consumes at least one character. -/
def splitAux : Nat → List Char → List Char → List (List Char)
  | 0, _, _ => []
  | _ + 1, _, [] => []
  | fuel + 1, revPre, c :: rs =>
    if pyWs c then
      let p := takeWsRun (c :: rs)
      p.1 :: splitAux fuel (p.1.reverse ++ revPre) p.2
    else if wpChar (revPre.headD ' ') && emAhead (c :: rs) then
      let r := dashRun (c :: rs)
      ((c :: rs).take r) :: splitAux fuel (((c :: rs).take r).reverse ++ revPre) ((c :: rs).drop r)
    else
      let p := wordScan (c :: revPre) 1 rs
      p.1 :: splitAux fuel (p.1.reverse ++ revPre) p.2

/-- `TextWrapper._split` on already-munged text (the empty-chunk filter of
the Python code is vacuous: every alternative consumes at least one
character). -/
def splitChunks (s : List Char) : List (List Char) :=
  splitAux (s.length + 1) [] s

/-- `chunk.strip() == ''`: every character is whitespace (true of the empty
string). -/
def isBlankChunk (c : List Char) : Bool := c.all pyWs

/-- Total character count of a chunk list. -/
def sumLen (l : List (List Char)) : Nat := (l.map List.length).sum

/-- The inner greedy loop of `_wrap_chunks`: pop chunks onto the current
line while `cur_len + len(chunk) <= width`; returns the popped prefix and
the remaining chunks. -/
def greedyTake (w : Nat) (cur : Nat) : List (List Char) → List (List Char) × List (List Char)
  | [] => ([], [])
  | c :: rest =>
    if cur + c.length ≤ w then
      let p := greedyTake w (cur + c.length) rest
      (c :: p.1, p.2)
    else ([], c :: rest)

/-- `chunk.rfind('-', 0, e)`: the largest index `< e` holding a `'-'`, as an
option. -/
def rfindDash : List Char → Nat → Option Nat
  | _, 0 => none
  | [], _ + 1 => none
  | c :: rest, e + 1 =>
    match rfindDash rest e with
    | some h => some (h + 1)
    | none => if c == '-' then some 0 else none

/-- `TextWrapper._handle_long_word` with `break_long_words=True` and
`break_on_hyphens=True`: chop `space_left` characters off the head chunk,
preferring a break just after the last hyphen inside the window when the
part before that hyphen contains a non-hyphen character.  Returns the piece
put on the current line and the remainder of the chunk. -/
def handleLong (w curLen : Nat) (chunk : List Char) : List Char × List Char :=
  let spaceLeft := if w < 1 then 1 else w - curLen
  let e :=
    if spaceLeft < chunk.length then
      match rfindDash chunk spaceLeft with
      | some h =>
        if 0 < h && (chunk.take h).any (fun c => c != '-') then h + 1 else spaceLeft
      | none => spaceLeft
    else spaceLeft
  (chunk.take e, chunk.drop e)

/-- The long-word step of one `_wrap_chunks` iteration: if the next
remaining chunk is longer than the width, split it with `handleLong`,
appending the piece to the current line. -/
def longAdjust (w : Nat) (g : List (List Char) × List (List Char)) :
    List (List Char) × List (List Char) :=
  match g.2 with
  | r0 :: rr =>
    if w < r0.length then
      let pr := handleLong w (sumLen g.1) r0
      (g.1 ++ [pr.1], pr.2 :: rr)
    else g
  | [] => g

/-- `drop_whitespace` at the end of a line: delete the last chunk of the
current line when it is pure whitespace (at most one chunk is deleted). -/
def dropTrailingBlank (l : List (List Char)) : List (List Char) :=
  match l.getLast? with
  | some last => if isBlankChunk last then l.dropLast else l
  | none => l

/-- `drop_whitespace` at the start of a line: delete a leading whitespace
chunk once at least one line has been emitted (`b` is `lines ≠ []`). -/
def normC (b : Bool) : List (List Char) → List (List Char)
  | [] => []
  | c :: t => if b && isBlankChunk c then t else c :: t

/-- One iteration of the `while chunks:` loop of `_wrap_chunks`: optional
leading-whitespace drop, greedy packing, long-word handling, trailing
whitespace drop, and emission of the line when it is nonempty.  Returns the
emitted line (if any) and the remaining chunks. -/
def iter1 (w : Nat) (b : Bool) (s : List (List Char)) :
    Option (List Char) × List (List Char) :=
  let c1 := normC b s
  let g := greedyTake w 0 c1
  let t2 := longAdjust w g
  let t3 := dropTrailingBlank t2.1
  if t3.isEmpty then (none, t2.2) else (some t3.flatten, t2.2)

/-- Measure used to bound the number of iterations of `_wrap_chunks`: every
iteration removes at least one character or one chunk. -/
def measChunks (l : List (List Char)) : Nat := sumLen l + l.length

/-- The `_wrap_chunks` loop, as the list of lines it emits from a given
state.  `b` records whether a line has been emitted already (Python's
`lines` being nonempty); the fuel dominates the iteration count. -/
def wrapL (w : Nat) : Nat → Bool → List (List Char) → List (List Char)
  | 0, _, _ => []
  | _ + 1, _, [] => []
  | fuel + 1, b, c :: s =>
    match iter1 w b (c :: s) with
    | (none, s') => wrapL w fuel b s'
    | (some L, s') => L :: wrapL w fuel true s'

/-- `textwrap.wrap(text, width=w)` under the default configuration used by
`draw_wrapped` (the engine only ever calls it with `w ≥ 20`, so the
`width <= 0` guard of the Python code is unreachable and omitted). -/
def pyWrap (w : Nat) (text : List Char) : List (List Char) :=
  let chunks := splitChunks (munge text)
  wrapL w (measChunks chunks + 1) false chunks

/-! ### The layout engine `draw_wrapped` -/

/-- A resolved font, as the layout engine observes it: the pixel size it
was loaded at (`font.size`) and the measured width in pixels of the fixed
52-character reference alphabet
`"ABCDEFGHIJKLMNOPQRSTUVWXYZabcdefghijklmnopqrstuvwxyz"`
(`font.getlength` of that string, a nonnegative float modelled as `ℚ`). -/
structure Font where
  size : Nat
  refLen : ℚ
deriving DecidableEq

/-- Python `int()` on a float: truncation toward zero (floor for
nonnegative values, ceiling for negative ones). -/
def ratTrunc (q : ℚ) : ℤ := if 0 ≤ q then ⌊q⌋ else ⌈q⌉

/-- `avg = max(font.getlength("ABC…xyz") / 52.0, 1)`. -/
def avgCharPx (f : Font) : ℚ := max (f.refLen / 52) 1

/-- `cols = max(int(max_width_px / avg), 20)`: the character-count wrap
width of `draw_wrapped`. -/
def colsOf (f : Font) (maxWidthPx : ℤ) : ℕ :=
  (max (ratTrunc ((maxWidthPx : ℚ) / avgCharPx f)) 20).toNat

/-- `int(font.size * (1.0 + line_spacing))`: the vertical advance per
emitted line and per blank paragraph. -/
def lineHeightOf (f : Font) (lineSpacing : ℚ) : ℤ :=
  ratTrunc ((f.size : ℚ) * (1 + lineSpacing))

/-- `not para.strip()`: the paragraph contains only whitespace. -/
def isBlankPara (p : List Char) : Bool := p.all pyWs

/-- `text.split("\n")`. -/
def splitNl : List Char → List (List Char)
  | [] => [[]]
  | '\n' :: rest => [] :: splitNl rest
  | c :: rest =>
    match splitNl rest with
    | p :: ps => (c :: p) :: ps
    | [] => [[c]]

/-- One `draw.text((x, y), line, font=font, fill=color)` call recorded on
the (otherwise external) PIL draw surface. -/
structure DrawCmd where
  x : ℤ
  y : ℤ
  color : ℤ × ℤ × ℤ
  line : List Char
deriving DecidableEq

/-- Emit the wrapped lines of one paragraph: each line is drawn at the
cursor and the cursor advances by the line height. -/
def emitLines (x : ℤ) (color : ℤ × ℤ × ℤ) (lineH : ℤ) :
    List (List Char) → ℤ → List DrawCmd × ℤ
  | [], y => ([], y)
  | L :: ls, y =>
    let p := emitLines x color lineH ls (y + lineH)
    (⟨x, y, color, L⟩ :: p.1, p.2)

/-- The `for para in text.split("\n")` loop of `draw_wrapped`: a blank
paragraph advances the cursor by one line height without drawing; any other
paragraph is wrapped with `textwrap.wrap(para, width=cols)` and its lines
are emitted. -/
def paraLoop (x : ℤ) (color : ℤ × ℤ × ℤ) (lineH : ℤ) (cols : ℕ) :
    List (List Char) → ℤ → List DrawCmd × ℤ
  | [], y => ([], y)
  | p :: ps, y =>
    if isBlankPara p then paraLoop x color lineH cols ps (y + lineH)
    else
      let el := emitLines x color lineH (pyWrap cols p) y
      let tl := paraLoop x color lineH cols ps el.2
      (el.1 ++ tl.1, tl.2)

/-- `draw_wrapped(draw, (x, y), text, font, color, max_width_px,
line_spacing)`: returns the draw calls performed on the surface and the
final cursor `y`. -/
def drawWrapped (f : Font) (x y : ℤ) (text : List Char) (color : ℤ × ℤ × ℤ)
    (maxWidthPx : ℤ) (lineSpacing : ℚ) : List DrawCmd × ℤ :=
  paraLoop x color (lineHeightOf f lineSpacing) (colsOf f maxWidthPx) (splitNl text) y

/-! ### The parchment noise compositing of `make_parchment`

`make_parchment` creates a flat base color, draws integer noise from a
generator freshly constructed from a constant seed
(`np.random.default_rng(seed).integers(low, high, size=(h, w, 3),
dtype=np.int16)`), adds it to the base in int16 arithmetic, clips to
`[0, 255]` and casts to uint8.  The numpy bit-generator itself is an
external collaborator (spec §6, "a random source seedable to an integer"),
modelled as an explicit stream parameter `gen` mapping
(seed, low, high, draw index) to the drawn integer.  The ambient module
state of `np.random` is modelled by `RngWorld`; `default_rng` derives its
stream from the seed alone and never reads that state. -/

/-- Ambient global pseudo-random state (the `np.random` module
generator). -/
structure RngWorld where
  state : Nat

/-- Wrap an integer into the signed 16-bit range (numpy int16 addition
overflows by wrapping). -/
def wrap16 (z : ℤ) : ℤ := (z + 32768) % 65536 - 32768

/-- int16 addition, with wraparound. -/
def i16add (a b : ℤ) : ℤ := wrap16 (a + b)

/-- `np.clip(·, lo, hi)` on a scalar. -/
def npClip (z lo hi : ℤ) : ℤ := min (max z lo) hi

/-- `astype(np.uint8)`: reduction modulo 256 (numpy wraps on out-of-range
casts). -/
def u8cast (z : ℤ) : ℤ := z % 256

/-- The per-channel compositing `np.clip(arr + noise, 0, 255).astype(np.uint8)`
performed by `make_parchment`, on one base channel value `b` and one noise
perturbation `p`, including the int16 addition and the final uint8 cast. -/
def noiseAddChannel (b p : ℤ) : ℤ := u8cast (npClip (i16add b p) 0 255)

/-- The flat base color `(238, 227, 203)` of the parchment. -/
def parchmentBase : ℕ → ℤ
  | 0 => 238
  | 1 => 227
  | _ => 203

/-- The noised parchment pixel grid before blurring:
channel `c` of pixel `(row, col)` is the base channel plus the
`((row * w + col) * 3 + c)`-th draw of the generator seeded afresh with
`seed`, composited by `noiseAddChannel`.  The ambient state `world` is not
consulted: `np.random.default_rng(seed)` constructs its stream from the
seed alone. -/
def parchmentField (gen : ℕ → ℤ → ℤ → ℕ → ℤ) (_world : RngWorld)
    (seed : ℕ) (w _h : ℕ) (low high : ℤ) (row col c : ℕ) : ℤ :=
  noiseAddChannel (parchmentBase c) (gen seed low high ((row * w + col) * 3 + c))

/-- The column-budget formula exactly as the specification words it
(spec §4.4 step 1), for comparison with `colsOf`: divide the measured
reference width by 52 to get the average glyph width, divide `maxWidthPx`
by that average and floor, then take the maximum with 20.  The
specification does not clamp the average below at one pixel. -/
def colsSpecFormula (f : Font) (maxWidthPx : ℤ) : ℤ :=
  max ⌊(maxWidthPx : ℚ) / (f.refLen / 52)⌋ 20

/-! ### Bookkeeping for the cursor arithmetic of `draw_wrapped` -/

/-- Number of blank paragraphs of a paragraph list. -/
def blankCount (ps : List (List Char)) : ℕ :=
  (ps.filter (fun p => isBlankPara p)).length

/-- Number of wrapped lines drawn for a paragraph list at a given column
budget. -/
def lineCount (cols : ℕ) (ps : List (List Char)) : ℕ :=
  (ps.map (fun p => if isBlankPara p then 0 else (pyWrap cols p).length)).sum

theorem emitLines_snd (x : ℤ) (color : ℤ × ℤ × ℤ) (lineH : ℤ)
    (ls : List (List Char)) (y : ℤ) :
    (emitLines x color lineH ls y).2 = y + ls.length * lineH := by
  induction ls generalizing y with
  | nil => simp [emitLines]
  | cons L ls ih =>
    simp only [emitLines, ih, List.length_cons]
    push_cast
    ring

theorem emitLines_fst_len (x : ℤ) (color : ℤ × ℤ × ℤ) (lineH : ℤ)
    (ls : List (List Char)) (y : ℤ) :
    (emitLines x color lineH ls y).1.length = ls.length := by
  induction ls generalizing y with
  | nil => rfl
  | cons L ls ih => simp [emitLines, ih]

theorem blankCount_cons (p : List Char) (ps : List (List Char)) :
    blankCount (p :: ps) = (if isBlankPara p then 1 else 0) + blankCount ps := by
  simp only [blankCount, List.filter_cons]
  split <;> simp [Nat.add_comm]

theorem lineCount_cons (cols : ℕ) (p : List Char) (ps : List (List Char)) :
    lineCount cols (p :: ps)
      = (if isBlankPara p then 0 else (pyWrap cols p).length) + lineCount cols ps := by
  simp [lineCount]

theorem paraLoop_snd (x : ℤ) (color : ℤ × ℤ × ℤ) (lineH : ℤ) (cols : ℕ)
    (ps : List (List Char)) (y : ℤ) :
    (paraLoop x color lineH cols ps y).2
      = y + (lineCount cols ps + blankCount ps) * lineH := by
  induction ps generalizing y with
  | nil => simp [paraLoop, lineCount, blankCount]
  | cons p ps ih =>
    rw [lineCount_cons, blankCount_cons]
    by_cases hb : isBlankPara p
    · simp only [paraLoop, hb, if_true, ih]
      push_cast
      ring
    · simp only [paraLoop, hb, if_false, ih, emitLines_snd]
      push_cast
      ring

theorem paraLoop_fst_len (x : ℤ) (color : ℤ × ℤ × ℤ) (lineH : ℤ) (cols : ℕ)
    (ps : List (List Char)) (y : ℤ) :
    (paraLoop x color lineH cols ps y).1.length = lineCount cols ps := by
  induction ps generalizing y with
  | nil => rfl
  | cons p ps ih =>
    rw [lineCount_cons]
    by_cases hb : isBlankPara p
    · simp [paraLoop, hb, ih]
    · simp [paraLoop, hb, ih, emitLines_fst_len]

/-! ### Evaluation lemmas for concrete fonts

Kernel reduction cannot evaluate `ℚ` arithmetic (its normalisation uses
well-founded recursion), so the rational-valued quantities `colsOf` and
`lineHeightOf` are evaluated by `norm_num` first; the remaining integer and
list computations are then decidable. -/

theorem avg_f44 : avgCharPx ⟨44, 52⟩ = 1 := by
  simp only [avgCharPx]
  norm_num

theorem ratTrunc_nonpos {q : ℚ} (h : q ≤ 0) : ratTrunc q ≤ 0 := by
  unfold ratTrunc
  split
  · have : q = 0 := le_antisymm h (by assumption)
    simp [this]
  · exact Int.ceil_le.mpr (by exact_mod_cast h)

theorem cols_f44 (mw : ℤ) (hmw : 0 ≤ mw) :
    colsOf ⟨44, 52⟩ mw = max mw.toNat 20 := by
  have h1 : ratTrunc ((mw : ℚ) / avgCharPx ⟨44, 52⟩) = mw := by
    rw [avg_f44]
    simp only [ratTrunc, div_one]
    rw [if_pos (by exact_mod_cast hmw)]
    exact_mod_cast Int.floor_intCast mw
  simp only [colsOf, h1]
  omega

theorem cols_f44_2000 : colsOf ⟨44, 52⟩ 2000 = 2000 := by
  rw [cols_f44 2000 (by norm_num)]
  decide

theorem cols_f44_0 : colsOf ⟨44, 52⟩ 0 = 20 := by
  rw [cols_f44 0 le_rfl]
  decide

theorem cols_f44_20 : colsOf ⟨44, 52⟩ 20 = 20 := by
  rw [cols_f44 20 (by norm_num)]
  decide

theorem cols_f44_25 : colsOf ⟨44, 52⟩ 25 = 25 := by
  rw [cols_f44 25 (by norm_num)]
  decide

theorem cols_f44_26 : colsOf ⟨44, 52⟩ 26 = 26 := by
  rw [cols_f44 26 (by norm_num)]
  decide

theorem lineH_f44_02 : lineHeightOf ⟨44, 52⟩ (1/5) = 52 := by
  simp only [lineHeightOf, ratTrunc]
  rw [if_pos (by norm_num)]
  norm_num

theorem lineH_f44_neg2 : lineHeightOf ⟨44, 52⟩ (-2) = -44 := by
  simp only [lineHeightOf, ratTrunc]
  rw [if_neg (by norm_num)]
  have h : ((44 : ℕ) : ℚ) * (1 + (-2)) = ((-44 : ℤ) : ℚ) := by norm_num
  rw [h, Int.ceil_intCast]

/-! ### Claims C2, C5, C7, C8, C9, C10 -/

/-- Claim C2, counterexample to the rounding mode.  The claim states that
every advance is `fontPixelSize × (1 + lineSpacingRatio)` rounded to the
nearest integer pixel.  At font size 44 and spacing ratio 0.2 (the body
font of `generate_altes_dokument.py`), `44 × 1.2 = 52.8`, whose nearest
integer is 53; the engine advances by `int(52.8) = 52`. -/
theorem claim_C2_counterexample :
    (drawWrapped ⟨44, 52⟩ 0 0 ['A'] (25, 20, 15) 2000 (1/5)).2
      ≠ 0 + 1 * round ((44 : ℚ) * (1 + 1/5)) := by
  have hr : (0 : ℤ) + 1 * round ((44 : ℚ) * (1 + 1/5)) = 53 := by
    rw [round_eq]
    norm_num
  rw [hr]
  simp only [drawWrapped, lineH_f44_02, cols_f44_2000]
  decide

/-- Claim C2 (amended): every emitted line and every blank paragraph
advances the cursor by exactly `int(fontPixelSize × (1 + lineSpacingRatio))`
— truncation toward zero, not rounding to nearest — so the final cursor is
the start cursor plus (number of drawn lines + number of blank paragraphs)
times that truncated line height. -/
theorem claim_C2_thm (f : Font) (x y : ℤ) (text : List Char)
    (color : ℤ × ℤ × ℤ) (mw : ℤ) (ls : ℚ) :
    (drawWrapped f x y text color mw ls).2
      = y + ((drawWrapped f x y text color mw ls).1.length
              + blankCount (splitNl text)) * lineHeightOf f ls := by
  unfold drawWrapped
  rw [paraLoop_snd, paraLoop_fst_len]

/-- Claim C5, counterexample: calling the engine on the empty string does
advance the cursor.  `"".split("\n")` is `[""]`, one blank paragraph, so
the cursor advances by one line height (52 at font size 44, ratio 0.2),
contradicting "an end-y cursor equal to the start-y cursor". -/
theorem claim_C5_counterexample :
    (drawWrapped ⟨44, 52⟩ 0 100 [] (25, 20, 15) 2000 (1/5)).2 ≠ 100 := by
  have h : (drawWrapped ⟨44, 52⟩ 0 100 [] (25, 20, 15) 2000 (1/5)).2
      = 100 + lineHeightOf ⟨44, 52⟩ (1/5) := rfl
  rw [h, lineH_f44_02]
  decide

/-- Claim C5 (amended): the empty string draws zero lines, but the
returned cursor is the start cursor plus exactly one line height: splitting
the empty string on newlines yields one blank paragraph, which performs one
blank advance. -/
theorem claim_C5_thm (f : Font) (x y : ℤ) (color : ℤ × ℤ × ℤ) (mw : ℤ) (ls : ℚ) :
    drawWrapped f x y [] color mw ls = ([], y + lineHeightOf f ls) := rfl

/-- Claim C7: for fixed (seed, width, height, low, high) the noise field —
and hence the noised parchment pixel grid — is independent of the ambient
pseudo-random state: `np.random.default_rng(seed)` derives its stream from
the seed alone, so two calls with identical arguments (which can differ
only in that ambient state) return identical fields. -/
theorem claim_C7_thm (gen : ℕ → ℤ → ℤ → ℕ → ℤ) (w₁ w₂ : RngWorld)
    (seed wd ht : ℕ) (low high : ℤ) :
    parchmentField gen w₁ seed wd ht low high
      = parchmentField gen w₂ seed wd ht low high := rfl

/-- Claim C8: for a base channel value in `[0, 255]` and a perturbation in
the generator range `[-12, 12)`, the composited channel equals the
saturating `clamp(b + p, 0, 255)`: the int16 addition cannot wrap and the
final uint8 cast is the identity on the clipped value. -/
theorem claim_C8_thm (b p : ℤ) (hb0 : 0 ≤ b) (hb1 : b ≤ 255)
    (hp0 : -12 ≤ p) (hp1 : p < 12) :
    noiseAddChannel b p = min (max (b + p) 0) 255 := by
  simp only [noiseAddChannel, u8cast, npClip, i16add, wrap16]
  omega

/-- Witness for C8 at a saturating input: base 250 plus perturbation 10
clamps to 255 (rather than wrapping to 4). -/
theorem claim_C8_witness :
    noiseAddChannel 250 10 = min (max ((250 : ℤ) + 10) 0) 255 :=
  claim_C8_thm 250 10 (by decide) (by decide) (by decide) (by decide)

/-- Claim C9, counterexample: at `max_width_px = 0` (a width budget whose
spec-side column budget would be below 1) the engine does not fail: it
clamps the column budget to 20 and produces output normally. -/
theorem claim_C9_counterexample :
    drawWrapped ⟨44, 52⟩ 0 0 ['A'] (25, 20, 15) 0 (1/5)
      = ([⟨0, 0, (25, 20, 15), ['A']⟩], 52) := by
  simp only [drawWrapped, lineH_f44_02, cols_f44_0]
  decide

/-- Claim C9 (amended): the engine has no failure path for small width
budgets: the column budget is clamped below at 20 columns, and a
non-positive `maxWidthPx` yields exactly the 20-column budget, with output
produced normally. -/
theorem colsOf_ge_20 (f : Font) (mw : ℤ) : 20 ≤ colsOf f mw := by
  have h : (20 : ℤ) ≤ max (ratTrunc ((mw : ℚ) / avgCharPx f)) 20 := le_max_right _ _
  simp only [colsOf]
  exact Int.toNat_le_toNat h

theorem colsOf_nonpos (f : Font) (mw : ℤ) (hmw : mw ≤ 0) : colsOf f mw = 20 := by
  have havg : (1 : ℚ) ≤ avgCharPx f := le_max_right _ _
  have hq : (mw : ℚ) / avgCharPx f ≤ 0 := by
    apply div_nonpos_of_nonpos_of_nonneg
    · exact_mod_cast hmw
    · linarith
  have ht : ratTrunc ((mw : ℚ) / avgCharPx f) ≤ 0 := ratTrunc_nonpos hq
  simp only [colsOf]
  rw [max_eq_right (le_trans ht (by norm_num))]
  rfl

theorem claim_C9_thm (f : Font) (mw : ℤ) :
    20 ≤ colsOf f mw ∧ (mw ≤ 0 → colsOf f mw = 20) :=
  ⟨colsOf_ge_20 f mw, colsOf_nonpos f mw⟩

/-- Witness for C9: at `max_width_px = -5` the column budget is exactly
20. -/
theorem claim_C9_witness :
    20 ≤ colsOf ⟨44, 52⟩ (-5) ∧ colsOf ⟨44, 52⟩ (-5) = 20 :=
  ⟨(claim_C9_thm ⟨44, 52⟩ (-5)).1, (claim_C9_thm ⟨44, 52⟩ (-5)).2 (by decide)⟩

/-- Claim C10, counterexample to "the returned cursor is never less than
the start y": at spacing ratio −2 the line height `int(44 × (1 − 2))` is
−44 and the cursor moves up. -/
theorem claim_C10_counterexample :
    (drawWrapped ⟨44, 52⟩ 0 0 ['A'] (25, 20, 15) 2000 (-2)).2 < 0 := by
  simp only [drawWrapped, lineH_f44_neg2, cols_f44_2000]
  decide

/-- Claim C10 (amended): the returned cursor equals the start `y` plus
`k × int(fontPixelSize × (1 + lineSpacingRatio))` for a natural number `k`;
the advance is independent of the start `x`, the color and the canvas
contents; and whenever the computed line height is nonnegative (e.g. for
any spacing ratio ≥ −1) the returned cursor is not less than the start
`y`. -/
theorem claim_C10_thm (f : Font) (x x' y : ℤ) (text : List Char)
    (color color' : ℤ × ℤ × ℤ) (mw : ℤ) (ls : ℚ) :
    (∃ k : ℕ, (drawWrapped f x y text color mw ls).2
        = y + (k : ℤ) * lineHeightOf f ls)
    ∧ (drawWrapped f x y text color mw ls).2
        = (drawWrapped f x' y text color' mw ls).2
    ∧ (0 ≤ lineHeightOf f ls → y ≤ (drawWrapped f x y text color mw ls).2) := by
  have h1 := paraLoop_snd x color (lineHeightOf f ls) (colsOf f mw) (splitNl text) y
  have h2 := paraLoop_snd x' color' (lineHeightOf f ls) (colsOf f mw) (splitNl text) y
  refine ⟨⟨lineCount (colsOf f mw) (splitNl text) + blankCount (splitNl text), ?_⟩, ?_, ?_⟩
  · simpa [drawWrapped] using h1
  · simp only [drawWrapped] at *
    rw [h1, h2]
  · intro hlh
    simp only [drawWrapped] at *
    rw [h1]
    have hk : (0 : ℤ) ≤ ((lineCount (colsOf f mw) (splitNl text) : ℤ)
        + (blankCount (splitNl text) : ℤ)) * lineHeightOf f ls := by positivity
    linarith

/-- Witness for C10 at a concrete input with nonnegative line height. -/
theorem claim_C10_witness :
    (100 : ℤ) ≤ (drawWrapped ⟨44, 52⟩ 3 100 ['A'] (25, 20, 15) 2000 (1/5)).2 :=
  (claim_C10_thm ⟨44, 52⟩ 3 7 100 ['A'] (25, 20, 15) (9, 9, 9) 2000 (1/5)).2.2
    (by rw [lineH_f44_02]; decide)

/-! ### Claim C1: the column-budget formula -/

/-- Claim C1, counterexample: for a font whose measured reference width is
26 px (average glyph width 0.5 px) and `maxWidthPx = 100`, the
specification formula gives `max(⌊100 / 0.5⌋, 20) = 200` columns, but the
engine clamps the average below at 1 px and computes 100 columns. -/
theorem claim_C1_counterexample :
    colsSpecFormula ⟨44, 26⟩ 100 ≠ (colsOf ⟨44, 26⟩ 100 : ℤ) := by
  have h1 : colsSpecFormula ⟨44, 26⟩ 100 = 200 := by
    simp only [colsSpecFormula]
    norm_num
  have ha : avgCharPx ⟨44, 26⟩ = 1 := by
    simp only [avgCharPx]
    rw [max_eq_right (by norm_num)]
  have h2 : colsOf ⟨44, 26⟩ 100 = 100 := by
    simp only [colsOf, ha, ratTrunc, div_one]
    rw [if_pos (by norm_num)]
    norm_num
    decide
  rw [h1, h2]
  decide

/-- Claim C1 (amended): the engine computes the wrap width from the
measured 52-character reference string as the claim describes, except that
the average glyph width is clamped below at 1 pixel; for every font whose
average glyph width is at least one pixel the two formulas agree. -/
theorem claim_C1_thm (f : Font) (mw : ℤ) (hmw : 0 < mw)
    (havg : 1 ≤ f.refLen / 52) :
    colsSpecFormula f mw = (colsOf f mw : ℤ) := by
  have ha : avgCharPx f = f.refLen / 52 := max_eq_left havg
  have hpos : (0 : ℚ) < f.refLen / 52 := lt_of_lt_of_le one_pos havg
  have hq : 0 ≤ (mw : ℚ) / (f.refLen / 52) := by positivity
  have ht : ratTrunc ((mw : ℚ) / avgCharPx f) = ⌊(mw : ℚ) / (f.refLen / 52)⌋ := by
    rw [ha, ratTrunc, if_pos hq]
  have h20 : (0 : ℤ) ≤ max (ratTrunc ((mw : ℚ) / avgCharPx f)) 20 :=
    le_trans (by norm_num) (le_max_right _ _)
  simp only [colsOf, colsSpecFormula]
  rw [Int.toNat_of_nonneg h20, ht]

/-- Witness for C1 at a font of average glyph width exactly 1 px. -/
theorem claim_C1_witness :
    colsSpecFormula ⟨44, 52⟩ 100 = (colsOf ⟨44, 52⟩ 100 : ℤ) :=
  claim_C1_thm ⟨44, 52⟩ 100 (by norm_num) (by norm_num)

/-! ### Claim C3: blank-line preservation -/

theorem wrapL_nil (w fuel : ℕ) (b : Bool) : wrapL w fuel b [] = [] := by
  cases fuel <;> rfl

/-- A single chunk that fits the width and is not blank wraps to exactly
itself. -/
theorem wrapL_single (w fuel : ℕ) (ch : List Char) (b : Bool)
    (h : ch.length ≤ w) (hnb : isBlankChunk ch = false) :
    wrapL w (fuel + 2) b [ch] = [ch] := by
  have hg : greedyTake w 0 [ch] = ([ch], []) := by
    simp only [greedyTake, Nat.zero_add, if_pos h]
  have hn : normC b [ch] = [ch] := by
    simp [normC, hnb]
  have hi : iter1 w b [ch] = (some ch, []) := by
    simp only [iter1]
    rw [hn, hg]
    simp [longAdjust, dropTrailingBlank, hnb]
  simp only [wrapL, hi]

theorem pyWrap_A (w : ℕ) (hw : 1 ≤ w) : pyWrap w ['A'] = [['A']] := by
  have hs : splitChunks (munge ['A']) = [['A']] := rfl
  simp only [pyWrap, hs]
  exact wrapL_single w 1 ['A'] false hw rfl

theorem pyWrap_B (w : ℕ) (hw : 1 ≤ w) : pyWrap w ['B'] = [['B']] := by
  have hs : splitChunks (munge ['B']) = [['B']] := rfl
  simp only [pyWrap, hs]
  exact wrapL_single w 1 ['B'] false hw rfl

/-- Claim C3: wrapping the text `"A\n\nB"` performs exactly 3 vertical
advances for every font, width budget and spacing ratio: the line "A", one
blank advance for the empty paragraph, and the line "B"; the blank line is
preserved as one line height of vertical whitespace. -/
theorem claim_C3_thm (f : Font) (x y : ℤ) (color : ℤ × ℤ × ℤ) (mw : ℤ) (ls : ℚ) :
    (drawWrapped f x y ['A', '\n', '\n', 'B'] color mw ls).1
        = [⟨x, y, color, ['A']⟩,
           ⟨x, y + 2 * lineHeightOf f ls, color, ['B']⟩]
    ∧ (drawWrapped f x y ['A', '\n', '\n', 'B'] color mw ls).2
        = y + 3 * lineHeightOf f ls := by
  have hw : 1 ≤ colsOf f mw := le_trans (by norm_num) (colsOf_ge_20 f mw)
  have hsplit : splitNl ['A', '\n', '\n', 'B'] = [['A'], [], ['B']] := rfl
  have hA := pyWrap_A (colsOf f mw) hw
  have hB := pyWrap_B (colsOf f mw) hw
  simp only [drawWrapped, hsplit, paraLoop, show isBlankPara ['A'] = false from rfl,
    show isBlankPara ['B'] = false from rfl, show isBlankPara [] = true from rfl,
    if_false, if_true, hA, hB, emitLines]
  refine ⟨?_, ?_⟩ <;> simp <;> ring

/-! ### Structural lemmas about the `_wrap_chunks` loop -/

theorem sumLen_nil : sumLen [] = 0 := rfl

theorem sumLen_cons (c : List Char) (l : List (List Char)) :
    sumLen (c :: l) = c.length + sumLen l := by
  simp [sumLen]

theorem sumLen_append (l₁ l₂ : List (List Char)) :
    sumLen (l₁ ++ l₂) = sumLen l₁ + sumLen l₂ := by
  simp [sumLen]

/-- `greedyTake` splits its input into a prefix and the matching suffix. -/
theorem greedyTake_spec (w : ℕ) :
    ∀ (l : List (List Char)) (cur : ℕ),
      ∃ k, greedyTake w cur l = (l.take k, l.drop k) := by
  intro l
  induction l with
  | nil => intro cur; exact ⟨0, rfl⟩
  | cons c rest ih =>
    intro cur
    by_cases h : cur + c.length ≤ w
    · obtain ⟨k, hk⟩ := ih (cur + c.length)
      exact ⟨k + 1, by simp [greedyTake, h, hk]⟩
    · exact ⟨0, by simp [greedyTake, h]⟩

/-- The popped prefix of `greedyTake` keeps `cur_len` within the width. -/
theorem greedyTake_fst_sum (w : ℕ) :
    ∀ (l : List (List Char)) (cur : ℕ),
      (greedyTake w cur l).1 = [] ∨ cur + sumLen (greedyTake w cur l).1 ≤ w := by
  intro l
  induction l with
  | nil => intro cur; exact Or.inl rfl
  | cons c rest ih =>
    intro cur
    by_cases h : cur + c.length ≤ w
    · right
      rcases ih (cur + c.length) with h2 | h2
      · simp only [greedyTake, if_pos h, h2, sumLen_cons, sumLen_nil]
        omega
      · simp only [greedyTake, if_pos h, sumLen_cons]
        omega
    · exact Or.inl (by simp [greedyTake, h])

theorem rfindDash_lt : ∀ (ch : List Char) (e h : ℕ), rfindDash ch e = some h → h < e := by
  intro ch
  induction ch with
  | nil => intro e h hf; cases e <;> simp [rfindDash] at hf
  | cons c rest ih =>
    intro e h hf
    cases e with
    | zero => simp [rfindDash] at hf
    | succ e =>
      simp only [rfindDash] at hf
      rcases hr : rfindDash rest e with _ | h'
      · rw [hr] at hf
        by_cases hc : c == '-'
        · rw [if_pos hc] at hf
          have h0 : (0 : ℕ) = h := Option.some.inj hf
          omega
        · rw [if_neg hc] at hf
          exact absurd hf (by simp)
      · rw [hr] at hf
        have h1 := ih e h' hr
        have h2 : h' + 1 = h := Option.some.inj hf
        omega

/-- The head piece cut by `_handle_long_word` fits the remaining space. -/
theorem handleLong_fst_len (w curLen : ℕ) (ch : List Char) :
    (handleLong w curLen ch).1.length ≤ if w < 1 then 1 else w - curLen := by
  simp only [handleLong]
  set sl := if w < 1 then 1 else w - curLen with hsl
  have hle : ∀ e : ℕ, e ≤ sl → (ch.take e).length ≤ sl := by
    intro e he
    calc (ch.take e).length ≤ e := by simp [List.length_take]
    _ ≤ sl := he
  split
  · rcases hr : rfindDash ch sl with _ | h
    · simp only [hr]
      exact hle sl le_rfl
    · simp only [hr]
      have hlt : h < sl := rfindDash_lt ch sl h hr
      split
      · exact hle (h + 1) hlt
      · exact hle sl le_rfl
  · exact hle sl le_rfl

theorem handleLong_append (w curLen : ℕ) (ch : List Char) :
    (handleLong w curLen ch).1 ++ (handleLong w curLen ch).2 = ch := by
  simp [handleLong]

theorem handleLong_snd_len_le (w curLen : ℕ) (ch : List Char) :
    (handleLong w curLen ch).2.length ≤ ch.length := by
  have := congrArg List.length (handleLong_append w curLen ch)
  simp only [List.length_append] at this
  omega

/-- When the long-word handler fires on a chunk longer than the width with
an empty current line, it always makes progress. -/
theorem handleLong_snd_lt (w : ℕ) (ch : List Char) (hw : w < ch.length) :
    (handleLong w 0 ch).2.length < ch.length := by
  simp only [handleLong]
  set sl := if w < 1 then 1 else w - 0 with hsl
  have hsl1 : 1 ≤ sl := by
    rw [hsl]
    split <;> omega
  have key : ∀ e : ℕ, 1 ≤ e → (ch.drop e).length < ch.length := by
    intro e he
    rw [List.length_drop]
    omega
  split
  · rcases hr : rfindDash ch sl with _ | h
    · simp only [hr]
      exact key sl hsl1
    · simp only [hr]
      split
      · exact key (h + 1) (by omega)
      · exact key sl hsl1
  · exact key sl hsl1

theorem measChunks_nil : measChunks [] = 0 := rfl

theorem measChunks_cons (c : List Char) (l : List (List Char)) :
    measChunks (c :: l) = c.length + 1 + measChunks l := by
  simp [measChunks, sumLen_cons]
  omega

theorem measChunks_drop_le (k : ℕ) (l : List (List Char)) :
    measChunks (l.drop k) ≤ measChunks l := by
  induction l generalizing k with
  | nil => simp
  | cons c rest ih =>
    cases k with
    | zero => simp
    | succ k =>
      calc measChunks ((c :: rest).drop (k + 1)) = measChunks (rest.drop k) := rfl
      _ ≤ measChunks rest := ih k
      _ ≤ measChunks (c :: rest) := by rw [measChunks_cons]; omega

/-- The remaining chunks of an iteration do not depend on whether a line
was emitted. -/
theorem iter1_snd (w : ℕ) (b : Bool) (s : List (List Char)) :
    (iter1 w b s).2 = (longAdjust w (greedyTake w 0 (normC b s))).2 := by
  simp only [iter1]
  split <;> rfl

theorem longAdjust_snd_meas_le (w : ℕ) (c1 : List (List Char)) :
    measChunks (longAdjust w (greedyTake w 0 c1)).2 ≤ measChunks c1 := by
  obtain ⟨k, hk⟩ := greedyTake_spec w c1 0
  rw [hk]
  rcases hd : c1.drop k with _ | ⟨r0, rr⟩
  · simp [longAdjust, hd, measChunks_nil]
  · simp only [longAdjust, hd]
    have h2 : measChunks (r0 :: rr) ≤ measChunks c1 := hd ▸ measChunks_drop_le k c1
    split
    · have hlen := handleLong_snd_len_le w (sumLen (c1.take k)) r0
      simp only [measChunks_cons] at *
      omega
    · simpa [hd] using h2

theorem longAdjust_snd_meas_lt (w : ℕ) (c1 : List (List Char))
    (hne : (greedyTake w 0 c1).1 ≠ []) :
    measChunks (longAdjust w (greedyTake w 0 c1)).2 < measChunks c1 := by
  obtain ⟨k, hk⟩ := greedyTake_spec w c1 0
  have hk1 : 1 ≤ k := by
    by_contra hk0
    have hz : k = 0 := by omega
    rw [hk, hz] at hne
    simp at hne
  obtain ⟨d0, dt, rfl⟩ : ∃ d0 dt, c1 = d0 :: dt := by
    cases c1 with
    | nil =>
      rw [hk] at hne
      simp at hne
    | cons a t => exact ⟨a, t, rfl⟩
  have hdrop : measChunks ((d0 :: dt).drop k) ≤ measChunks dt := by
    obtain ⟨k', rfl⟩ : ∃ k', k = k' + 1 := ⟨k - 1, by omega⟩
    exact measChunks_drop_le k' dt
  have hlt : measChunks dt < measChunks (d0 :: dt) := by
    rw [measChunks_cons]
    omega
  rw [hk]
  rcases hd : (d0 :: dt).drop k with _ | ⟨r0, rr⟩
  · simp only [longAdjust, hd]
    simp only [measChunks_nil]
    omega
  · simp only [longAdjust, hd]
    rw [hd] at hdrop
    split
    · have hlen := handleLong_snd_len_le w (sumLen ((d0 :: dt).take k)) r0
      simp only [measChunks_cons] at *
      omega
    · simpa using lt_of_le_of_lt hdrop hlt

/-- Every iteration of the `_wrap_chunks` loop strictly decreases the
measure. -/
theorem iter1_meas (w : ℕ) (b : Bool) (s : List (List Char)) (hs : s ≠ []) :
    measChunks (iter1 w b s).2 < measChunks s := by
  obtain ⟨c0, rest0, rfl⟩ : ∃ c0 rest0, s = c0 :: rest0 := by
    cases s with
    | nil => exact absurd rfl hs
    | cons a t => exact ⟨a, t, rfl⟩
  rw [iter1_snd]
  by_cases hb : (b && isBlankChunk c0) = true
  · have hn : normC b (c0 :: rest0) = rest0 := by
      simp only [normC]
      rw [if_pos hb]
    rw [hn]
    calc measChunks (longAdjust w (greedyTake w 0 rest0)).2
        ≤ measChunks rest0 := longAdjust_snd_meas_le w rest0
    _ < measChunks (c0 :: rest0) := by rw [measChunks_cons]; omega
  · have hn : normC b (c0 :: rest0) = c0 :: rest0 := by
      simp only [normC]
      rw [if_neg hb]
    rw [hn]
    by_cases hfit : c0.length ≤ w
    · have hne : (greedyTake w 0 (c0 :: rest0)).1 ≠ [] := by
        simp [greedyTake, hfit]
      exact longAdjust_snd_meas_lt w (c0 :: rest0) hne
    · have hg : greedyTake w 0 (c0 :: rest0) = ([], c0 :: rest0) := by
        simp [greedyTake, hfit]
      rw [hg]
      simp only [longAdjust]
      rw [if_pos (Nat.not_le.mp hfit)]
      have h2 := handleLong_snd_lt w c0 (by omega)
      simp only [sumLen_nil, measChunks_cons]
      omega

/-- The result of the `_wrap_chunks` loop does not depend on the fuel, as
long as the fuel dominates the measure. -/
theorem wrapL_congr (w : ℕ) :
    ∀ (n f1 f2 : ℕ) (b : Bool) (s : List (List Char)),
      measChunks s ≤ n → measChunks s < f1 → measChunks s < f2 →
      wrapL w f1 b s = wrapL w f2 b s := by
  intro n
  induction n with
  | zero =>
    intro f1 f2 b s hn h1 h2
    have hs : s = [] := by
      cases s with
      | nil => rfl
      | cons c t => rw [measChunks_cons] at hn; omega
    subst hs
    rw [wrapL_nil, wrapL_nil]
  | succ n ih =>
    intro f1 f2 b s hn h1 h2
    cases s with
    | nil => rw [wrapL_nil, wrapL_nil]
    | cons c t =>
      obtain ⟨f1', rfl⟩ : ∃ f1', f1 = f1' + 1 := ⟨f1 - 1, by omega⟩
      obtain ⟨f2', rfl⟩ : ∃ f2', f2 = f2' + 1 := ⟨f2 - 1, by omega⟩
      have hm := iter1_meas w b (c :: t) (by simp)
      simp only [wrapL]
      rcases hi : iter1 w b (c :: t) with ⟨o, s'⟩
      rw [hi] at hm
      have hm' : measChunks s' < measChunks (c :: t) := hm
      cases o with
      | none => exact ih f1' f2' b s' (by omega) (by omega) (by omega)
      | some L => exact congrArg (List.cons L) (ih f1' f2' true s' (by omega) (by omega) (by omega))

theorem sumLen_dropLast_le (l : List (List Char)) :
    sumLen l.dropLast ≤ sumLen l := by
  induction l with
  | nil => exact le_rfl
  | cons x t ih =>
    cases t with
    | nil => simp [sumLen]
    | cons y u =>
      have hd : (x :: y :: u).dropLast = x :: (y :: u).dropLast := rfl
      rw [hd, sumLen_cons, sumLen_cons]
      omega

/-- `dropTrailingBlank` is the list itself or its `dropLast`. -/
theorem dropTrailingBlank_cases (l : List (List Char)) :
    dropTrailingBlank l = l ∨ dropTrailingBlank l = l.dropLast := by
  simp only [dropTrailingBlank]
  rcases hl : l.getLast? with _ | last
  · exact Or.inl rfl
  · by_cases hb : isBlankChunk last = true
    · right
      simp [hb]
    · left
      simp [hb]

/-- `dropTrailingBlank` never increases the character count. -/
theorem sumLen_dropTrailingBlank_le (l : List (List Char)) :
    sumLen (dropTrailingBlank l) ≤ sumLen l := by
  rcases dropTrailingBlank_cases l with h | h <;> rw [h]
  · exact sumLen_dropLast_le l

/-- The chunks put on one line by the greedy step plus the long-word step
total at most the width. -/
theorem longAdjust_fst_sum (w : ℕ) (hw : 1 ≤ w) (c1 : List (List Char)) :
    sumLen (longAdjust w (greedyTake w 0 c1)).1 ≤ w := by
  have hg1 : sumLen (greedyTake w 0 c1).1 ≤ w := by
    rcases greedyTake_fst_sum w c1 0 with h | h
    · rw [h, sumLen_nil]; omega
    · omega
  rcases hd : (greedyTake w 0 c1).2 with _ | ⟨r0, rr⟩
  · simp only [longAdjust, hd]
    exact hg1
  · simp only [longAdjust, hd]
    by_cases hlong : w < r0.length
    · rw [if_pos hlong]
      have hp := handleLong_fst_len w (sumLen (greedyTake w 0 c1).1) r0
      rw [if_neg (by omega : ¬ w < 1)] at hp
      simp only [sumLen_append, sumLen_cons, sumLen_nil]
      omega
    · rw [if_neg hlong]
      exact hg1

/-- Every line emitted by one iteration fits the width. -/
theorem iter1_line_len (w : ℕ) (hw : 1 ≤ w) (b : Bool) (s : List (List Char))
    (L : List Char) (s' : List (List Char)) (h : iter1 w b s = (some L, s')) :
    L.length ≤ w := by
  have h2 := congrArg Prod.fst h
  simp only [iter1] at h2
  by_cases he :
      (dropTrailingBlank (longAdjust w (greedyTake w 0 (normC b s))).1).isEmpty = true
  · rw [if_pos he] at h2
    simp at h2
  · rw [if_neg he] at h2
    have hL : (dropTrailingBlank (longAdjust w (greedyTake w 0 (normC b s))).1).flatten
        = L := by
      simpa using h2
    rw [← hL]
    have h1 : ((dropTrailingBlank (longAdjust w (greedyTake w 0 (normC b s))).1).flatten).length
        = sumLen (dropTrailingBlank (longAdjust w (greedyTake w 0 (normC b s))).1) := by
      simp [sumLen, List.length_flatten]
    rw [h1]
    calc sumLen (dropTrailingBlank (longAdjust w (greedyTake w 0 (normC b s))).1)
        ≤ sumLen (longAdjust w (greedyTake w 0 (normC b s))).1 :=
          sumLen_dropTrailingBlank_le _
    _ ≤ w := longAdjust_fst_sum w hw _

/-- Every line emitted by the `_wrap_chunks` loop fits the width. -/
theorem wrapL_len_le (w : ℕ) (hw : 1 ≤ w) :
    ∀ (fuel : ℕ) (b : Bool) (s : List (List Char)) (L : List Char),
      L ∈ wrapL w fuel b s → L.length ≤ w := by
  intro fuel
  induction fuel with
  | zero => intro b s L hm; simp [wrapL] at hm
  | succ fuel ih =>
    intro b s L hm
    cases s with
    | nil => simp [wrapL] at hm
    | cons c t =>
      rcases hi : iter1 w b (c :: t) with ⟨o, s'⟩
      simp only [wrapL, hi] at hm
      cases o with
      | none => exact ih b s' L hm
      | some L0 =>
        rcases List.mem_cons.mp hm with rfl | hm'
        · exact iter1_line_len w hw b (c :: t) L s' hi
        · exact ih true s' L hm'

/-! ### Content preservation on whitespace-free input -/

/-- Chunk lists whose characters are all non-whitespace. -/
def WsFree (l : List (List Char)) : Prop :=
  ∀ ch ∈ l, ∀ c ∈ ch, pyWs c = false

theorem wsFree_blank_nil {ch : List Char} (hfree : ∀ c ∈ ch, pyWs c = false)
    (hb : isBlankChunk ch = true) : ch = [] := by
  cases ch with
  | nil => rfl
  | cons c t =>
    simp only [isBlankChunk, List.all_cons, Bool.and_eq_true] at hb
    have h := hfree c (by simp)
    rw [h] at hb
    exact absurd hb.1 (by simp)

theorem sumLen_take_drop (k : ℕ) (l : List (List Char)) :
    sumLen (l.take k) + sumLen (l.drop k) = sumLen l := by
  rw [← sumLen_append, List.take_append_drop]

theorem sumLen_dropTrailingBlank_wsfree (l : List (List Char))
    (hfree : ∀ ch ∈ l, ∀ c ∈ ch, pyWs c = false) :
    sumLen (dropTrailingBlank l) = sumLen l := by
  simp only [dropTrailingBlank]
  rcases hl : l.getLast? with _ | last
  · rfl
  · have hlast : last ∈ l := by
      obtain ⟨hne, heq⟩ := List.mem_getLast?_eq_getLast (show last ∈ l.getLast? by simp [hl])
      rw [heq]
      exact List.getLast_mem hne
    by_cases hb : isBlankChunk last = true
    · have hnil : last = [] := wsFree_blank_nil (hfree last hlast) hb
      have heq : l.dropLast ++ [last] = l := List.dropLast_append_getLast? last hl
      simp only [hb, if_true]
      calc sumLen l.dropLast = sumLen l.dropLast + last.length := by rw [hnil]; simp
      _ = sumLen (l.dropLast ++ [last]) := by simp [sumLen_append, sumLen_cons, sumLen_nil]
      _ = sumLen l := by rw [heq]
    · simp [hb]

theorem wsFree_suffix {l₁ l₂ : List (List Char)} (h : WsFree l₂)
    (hs : ∀ ch ∈ l₁, ch ∈ l₂) : WsFree l₁ :=
  fun ch hch => h ch (hs ch hch)

theorem normC_sumLen (b : Bool) (s : List (List Char)) (hfree : WsFree s) :
    sumLen (normC b s) = sumLen s := by
  cases s with
  | nil => rfl
  | cons c0 t =>
    simp only [normC]
    by_cases hb : (b && isBlankChunk c0) = true
    · rw [if_pos hb]
      have hb' : isBlankChunk c0 = true := by
        rcases Bool.and_eq_true _ _ |>.mp hb with ⟨_, h2⟩
        exact h2
      have : c0 = [] := wsFree_blank_nil (hfree c0 (by simp)) hb'
      rw [sumLen_cons, this]
      simp
    · rw [if_neg hb]

theorem normC_mem (b : Bool) (s : List (List Char)) :
    ∀ ch ∈ normC b s, ch ∈ s := by
  cases s with
  | nil => simp [normC]
  | cons c0 t =>
    simp only [normC]
    by_cases hb : (b && isBlankChunk c0) = true
    · rw [if_pos hb]
      intro ch hch
      exact List.mem_cons_of_mem _ hch
    · rw [if_neg hb]
      intro ch hch
      exact hch

/-- One iteration preserves the character count of whitespace-free chunk
lists: every dropped chunk is blank and hence empty. -/
theorem iter1_content (w : ℕ) (b : Bool) (s : List (List Char)) (hfree : WsFree s) :
    (match (iter1 w b s).1 with | none => 0 | some L => L.length)
      + sumLen (iter1 w b s).2 = sumLen s := by
  have hfree1 : WsFree (normC b s) := wsFree_suffix hfree (normC_mem b s)
  obtain ⟨k, hk⟩ := greedyTake_spec w (normC b s) 0
  have hfreeT2 : ∀ ch ∈ (longAdjust w (greedyTake w 0 (normC b s))).1,
      ∀ c ∈ ch, pyWs c = false := by
    rw [hk]
    rcases hd : (normC b s).drop k with _ | ⟨r0, rr⟩
    · simp only [longAdjust, hd]
      intro ch hch
      exact hfree1 ch (List.mem_of_mem_take hch)
    · simp only [longAdjust, hd]
      by_cases hlong : w < r0.length
      · rw [if_pos hlong]
        intro ch hch
        rcases List.mem_append.mp hch with hch' | hch'
        · exact hfree1 ch (List.mem_of_mem_take hch')
        · have hr0 : r0 ∈ normC b s := by
            have : r0 ∈ (normC b s).drop k := by rw [hd]; simp
            exact List.mem_of_mem_drop this
          have hpiece : ch = (handleLong w (sumLen ((normC b s).take k)) r0).1 := by
            simpa using hch'
          intro c hc
          apply hfree1 r0 hr0
          rw [hpiece] at hc
          have happ := handleLong_append w (sumLen ((normC b s).take k)) r0
          rw [← happ]
          exact List.mem_append.mpr (Or.inl hc)
      · rw [if_neg hlong]
        intro ch hch
        exact hfree1 ch (List.mem_of_mem_take hch)
  have hsum2 : sumLen (longAdjust w (greedyTake w 0 (normC b s))).1
      + sumLen (longAdjust w (greedyTake w 0 (normC b s))).2
      = sumLen (normC b s) := by
    rw [hk]
    rcases hd : (normC b s).drop k with _ | ⟨r0, rr⟩
    · simp only [longAdjust, hd]
      have h := sumLen_take_drop k (normC b s)
      rw [hd] at h
      exact h
    · simp only [longAdjust, hd]
      by_cases hlong : w < r0.length
      · rw [if_pos hlong]
        have happ := congrArg List.length
          (handleLong_append w (sumLen ((normC b s).take k)) r0)
        simp only [List.length_append] at happ
        simp only [sumLen_append, sumLen_cons, sumLen_nil]
        have h := sumLen_take_drop k (normC b s)
        rw [hd, sumLen_cons] at h
        omega
      · rw [if_neg hlong]
        have h := sumLen_take_drop k (normC b s)
        rw [hd] at h
        simpa using h
  have hdrop : sumLen (dropTrailingBlank (longAdjust w (greedyTake w 0 (normC b s))).1)
      = sumLen (longAdjust w (greedyTake w 0 (normC b s))).1 :=
    sumLen_dropTrailingBlank_wsfree _ hfreeT2
  have hnorm := normC_sumLen b s hfree
  simp only [iter1]
  by_cases he :
      (dropTrailingBlank (longAdjust w (greedyTake w 0 (normC b s))).1).isEmpty = true
  · rw [if_pos he]
    have h0 : sumLen (dropTrailingBlank (longAdjust w (greedyTake w 0 (normC b s))).1) = 0 := by
      rw [List.isEmpty_iff] at he
      rw [he, sumLen_nil]
    simp only []
    omega
  · rw [if_neg he]
    simp only []
    have hflat : ((dropTrailingBlank (longAdjust w (greedyTake w 0 (normC b s))).1).flatten).length
        = sumLen (dropTrailingBlank (longAdjust w (greedyTake w 0 (normC b s))).1) := by
      simp [sumLen, List.length_flatten]
    omega

/-- One iteration preserves whitespace-freeness of the remaining chunks. -/
theorem iter1_wsfree (w : ℕ) (b : Bool) (s : List (List Char)) (hfree : WsFree s) :
    WsFree (iter1 w b s).2 := by
  have hfree1 : WsFree (normC b s) := wsFree_suffix hfree (normC_mem b s)
  rw [iter1_snd]
  obtain ⟨k, hk⟩ := greedyTake_spec w (normC b s) 0
  rw [hk]
  rcases hd : (normC b s).drop k with _ | ⟨r0, rr⟩
  · simp only [longAdjust, hd]
    intro ch hch
    simp at hch
  · simp only [longAdjust, hd]
    have hmemdrop : ∀ ch ∈ r0 :: rr, ch ∈ normC b s := by
      intro ch hch
      have : ch ∈ (normC b s).drop k := by rw [hd]; exact hch
      exact List.mem_of_mem_drop this
    by_cases hlong : w < r0.length
    · rw [if_pos hlong]
      intro ch hch
      rcases List.mem_cons.mp hch with rfl | hch'
      · intro c hc
        apply hfree1 r0 (hmemdrop r0 (by simp))
        have happ := handleLong_append w (sumLen ((normC b s).take k)) r0
        rw [← happ]
        exact List.mem_append.mpr (Or.inr hc)
      · exact hfree1 ch (hmemdrop ch (List.mem_cons_of_mem _ hch'))
    · rw [if_neg hlong]
      intro ch hch
      exact hfree1 ch (hmemdrop ch hch)

/-- The `_wrap_chunks` loop emits every character of a whitespace-free
chunk list. -/
theorem wrapL_content (w : ℕ) :
    ∀ (fuel : ℕ) (b : Bool) (s : List (List Char)), WsFree s →
      measChunks s < fuel → sumLen (wrapL w fuel b s) = sumLen s := by
  intro fuel
  induction fuel with
  | zero => intro b s hfree hm; omega
  | succ fuel ih =>
    intro b s hfree hm
    cases s with
    | nil => rw [wrapL_nil]
    | cons c t =>
      have hc := iter1_content w b (c :: t) hfree
      have hf := iter1_wsfree w b (c :: t) hfree
      have hmeas := iter1_meas w b (c :: t) (by simp)
      rcases hi : iter1 w b (c :: t) with ⟨o, s'⟩
      rw [hi] at hc hf hmeas
      have hf' : WsFree s' := hf
      have hmeas' : measChunks s' < measChunks (c :: t) := hmeas
      simp only [wrapL, hi]
      cases o with
      | none =>
        rw [ih b s' hf' (by omega)]
        simpa using hc
      | some L =>
        rw [sumLen_cons, ih true s' hf' (by omega)]
        simpa using hc

/-! ### The chunk splitter partitions its input -/

theorem dashRun_cons_ne (a : Char) (u : List Char) (h : a ≠ '-') :
    dashRun (a :: u) = 0 := by
  unfold dashRun
  split
  · rename_i heq
    injection heq with h1 _
    exact absurd h1 h
  · rfl

theorem dashRun_le_length : ∀ t : List Char, dashRun t ≤ t.length
  | [] => by simp [dashRun]
  | a :: u => by
    by_cases h : a = '-'
    · subst h
      have h1 : dashRun ('-' :: u) = dashRun u + 1 := rfl
      rw [h1]
      simp only [List.length_cons]
      have h2 := dashRun_le_length u
      omega
    · rw [dashRun_cons_ne a u h]
      exact Nat.zero_le _

theorem takeWsRun_append : ∀ s : List Char, (takeWsRun s).1 ++ (takeWsRun s).2 = s := by
  intro s
  induction s with
  | nil => rfl
  | cons c rs ih =>
    simp only [takeWsRun]
    by_cases h : pyWs c = true
    · rw [if_pos h]
      simpa using ih
    · rw [if_neg h]
      rfl

theorem wordScan_append :
    ∀ (rest revAll : List Char) (cnt : ℕ),
      (wordScan revAll cnt rest).1 ++ (wordScan revAll cnt rest).2
        = (revAll.take cnt).reverse ++ rest := by
  intro rest
  induction rest with
  | nil => intro revAll cnt; simp [wordScan]
  | cons c rs ih =>
    intro revAll cnt
    simp only [wordScan]
    by_cases h1 : pyWs c = true
    · rw [if_pos h1]
    · rw [if_neg h1]
      by_cases h2 : (c == '-' && hyBehind revAll && hyAhead rs) = true
      · rw [if_pos h2]
        simp
      · rw [if_neg h2]
        by_cases h3 : (wpChar (revAll.headD ' ') && emAhead (c :: rs)) = true
        · rw [if_pos h3]
        · rw [if_neg h3]
          rw [ih (c :: revAll) (cnt + 1)]
          simp

theorem wordScan_fst_ne :
    ∀ (rest revAll : List Char) (cnt : ℕ), 1 ≤ cnt → revAll ≠ [] →
      (wordScan revAll cnt rest).1 ≠ [] := by
  have htake : ∀ (revAll : List Char) (cnt : ℕ), 1 ≤ cnt → revAll ≠ [] →
      (revAll.take cnt).reverse ≠ [] := by
    intro revAll cnt hc hr
    cases revAll with
    | nil => exact absurd rfl hr
    | cons a t =>
      obtain ⟨c', rfl⟩ : ∃ c', cnt = c' + 1 := ⟨cnt - 1, by omega⟩
      simp [List.take]
  intro rest
  induction rest with
  | nil => intro revAll cnt hc hr; exact htake revAll cnt hc hr
  | cons c rs ih =>
    intro revAll cnt hc hr
    simp only [wordScan]
    by_cases h1 : pyWs c = true
    · rw [if_pos h1]
      exact htake revAll cnt hc hr
    · rw [if_neg h1]
      by_cases h2 : (c == '-' && hyBehind revAll && hyAhead rs) = true
      · rw [if_pos h2]
        exact htake (c :: revAll) (cnt + 1) (by omega) (by simp)
      · rw [if_neg h2]
        by_cases h3 : (wpChar (revAll.headD ' ') && emAhead (c :: rs)) = true
        · rw [if_pos h3]
          exact htake revAll cnt hc hr
        · rw [if_neg h3]
          exact ih (c :: revAll) (cnt + 1) (by omega) (by simp)

theorem takeWsRun_fst_ne (c : Char) (rs : List Char) (h : pyWs c = true) :
    (takeWsRun (c :: rs)).1 ≠ [] := by
  simp [takeWsRun, h]

/-- The chunks of `_split` flatten back to the input string. -/
theorem splitAux_flatten :
    ∀ (fuel : ℕ) (revPre s : List Char), s.length < fuel →
      (splitAux fuel revPre s).flatten = s := by
  intro fuel
  induction fuel with
  | zero => intro revPre s h; omega
  | succ fuel ih =>
    intro revPre s hlen
    cases s with
    | nil => rfl
    | cons c rs =>
      simp only [splitAux]
      by_cases h1 : pyWs c = true
      · rw [if_pos h1]
        have happ := takeWsRun_append (c :: rs)
        have hne := takeWsRun_fst_ne c rs h1
        have hlen2 : (takeWsRun (c :: rs)).2.length < fuel := by
          have hlen1 : 1 ≤ (takeWsRun (c :: rs)).1.length := by
            cases hh : (takeWsRun (c :: rs)).1 with
            | nil => exact absurd hh hne
            | cons a t => simp
          have hlen3 := congrArg List.length happ
          simp only [List.length_append, List.length_cons] at hlen3
          simp only [List.length_cons] at hlen
          omega
        simp only [List.flatten_cons]
        rw [ih _ _ hlen2, happ]
      · rw [if_neg h1]
        by_cases h2 : (wpChar (revPre.headD ' ') && emAhead (c :: rs)) = true
        · rw [if_pos h2]
          have hr2 : 2 ≤ dashRun (c :: rs) := by
            have h3 := (Bool.and_eq_true _ _).mp h2
            have h4 := (Bool.and_eq_true _ _).mp h3.2
            exact of_decide_eq_true h4.1
          have hrle : dashRun (c :: rs) ≤ (c :: rs).length := dashRun_le_length (c :: rs)
          have hlen2 : ((c :: rs).drop (dashRun (c :: rs))).length < fuel := by
            rw [List.length_drop]
            simp only [List.length_cons] at *
            omega
          simp only [List.flatten_cons]
          rw [ih _ _ hlen2, List.take_append_drop]
        · rw [if_neg h2]
          have happ := wordScan_append rs (c :: revPre) 1
          have hne := wordScan_fst_ne rs (c :: revPre) 1 le_rfl (by simp)
          have htk : (((c :: revPre).take 1).reverse : List Char) = [c] := by simp
          rw [htk] at happ
          have hlen2 : (wordScan (c :: revPre) 1 rs).2.length < fuel := by
            have hl := congrArg List.length happ
            simp only [List.length_append, List.length_cons, List.length_nil] at hl
            have h1 : 1 ≤ (wordScan (c :: revPre) 1 rs).1.length := by
              cases hh : (wordScan (c :: revPre) 1 rs).1 with
              | nil => exact absurd hh hne
              | cons a t => simp
            simp only [List.length_cons] at hlen
            omega
          simp only [List.flatten_cons]
          rw [ih _ _ hlen2]
          simpa using happ

theorem splitChunks_flatten (s : List Char) : (splitChunks s).flatten = s :=
  splitAux_flatten (s.length + 1) [] s (by omega)

theorem expandTabs_id :
    ∀ (s : List Char) (col : ℕ), (∀ c ∈ s, pyWs c = false) → expandTabs s col = s := by
  intro s
  induction s with
  | nil => intro col h; rfl
  | cons c rest ih =>
    intro col h
    have hc := h c (by simp)
    have h1 : (c == '\t') = false := by
      cases hh : c == '\t'
      · rfl
      · have : c = '\t' := by simpa using hh
        rw [this] at hc
        simp [pyWs] at hc
    have h2 : (c == '\n' || c == '\r') = false := by
      cases hh : c == '\n'
      · cases hh2 : c == '\r'
        · simp [hh, hh2]
        · have : c = '\r' := by simpa using hh2
          rw [this] at hc
          simp [pyWs] at hc
      · have : c = '\n' := by simpa using hh
        rw [this] at hc
        simp [pyWs] at hc
    simp only [expandTabs, h1, h2, Bool.false_eq_true, if_false]
    rw [ih (col + 1) (fun d hd => h d (by simp [hd]))]

theorem munge_id (s : List Char) (h : ∀ c ∈ s, pyWs c = false) : munge s = s := by
  simp only [munge]
  rw [expandTabs_id s 0 h]
  have : ∀ c ∈ s, (if pyWs c then ' ' else c) = c := by
    intro c hc
    rw [h c hc]
    simp
  exact List.map_congr_left this |>.trans (List.map_id s)

theorem sumLen_eq_flatten_len (l : List (List Char)) :
    sumLen l = l.flatten.length := by
  simp [sumLen, List.length_flatten]

/-! ### Claim C4: long words and the line-length bound -/

/-- Claim C4, counterexample: a single 25-character word at a 20-column
budget is not emitted on its own line unbroken — `textwrap.wrap` breaks
long words at the column boundary by default, so the engine draws
`"b"*20` and `"b"*5` on two lines. -/
theorem claim_C4_counterexample :
    (drawWrapped ⟨44, 52⟩ 0 0 (List.replicate 25 'b') (25, 20, 15) 20 (1/5)).1
      = [⟨0, 0, (25, 20, 15), List.replicate 20 'b'⟩,
         ⟨0, 52, (25, 20, 15), List.replicate 5 'b'⟩] := by
  simp only [drawWrapped, lineH_f44_02, cols_f44_20]
  decide

/-- Claim C4 (amended): no emitted line ever exceeds the column budget — a
single word longer than the budget is broken across at least two lines
(at the column boundary, or after an interior hyphen) rather than being
emitted unbroken on one overlong line. -/
theorem claim_C4_thm (f : Font) (mw : ℤ) (para : List Char) :
    (∀ L ∈ pyWrap (colsOf f mw) para, L.length ≤ colsOf f mw)
    ∧ ((∀ c ∈ para, pyWs c = false) → colsOf f mw < para.length
        → 2 ≤ (pyWrap (colsOf f mw) para).length) := by
  have hw : 1 ≤ colsOf f mw := le_trans (by norm_num) (colsOf_ge_20 f mw)
  constructor
  · intro L hL
    have hL' : L ∈ wrapL (colsOf f mw) (measChunks (splitChunks (munge para)) + 1)
        false (splitChunks (munge para)) := hL
    exact wrapL_len_le (colsOf f mw) hw _ false _ L hL'
  · intro hfree hlen
    have hm : munge para = para := munge_id para hfree
    have hfl : (splitChunks para).flatten = para := splitChunks_flatten para
    have hfree' : WsFree (splitChunks para) := by
      intro ch hch c hc
      apply hfree
      rw [← hfl]
      exact List.mem_flatten.mpr ⟨ch, hch, hc⟩
    have hsum : sumLen (pyWrap (colsOf f mw) para) = para.length := by
      simp only [pyWrap, hm]
      rw [wrapL_content (colsOf f mw) _ false _ hfree' (by omega)]
      rw [sumLen_eq_flatten_len, hfl]
    rcases hcase : pyWrap (colsOf f mw) para with _ | ⟨L1, rest⟩
    · rw [hcase, sumLen_nil] at hsum
      omega
    · rcases rest with _ | ⟨L2, rest2⟩
      · have hmem : L1 ∈ pyWrap (colsOf f mw) para := by
          rw [hcase]
          simp
        have hmem' : L1 ∈ wrapL (colsOf f mw) (measChunks (splitChunks (munge para)) + 1)
            false (splitChunks (munge para)) := hmem
        have hL1 := wrapL_len_le (colsOf f mw) hw _ false _ L1 hmem'
        rw [hcase, sumLen_cons, sumLen_nil] at hsum
        omega
      · simp

/-- Witness for C4 at the 25-character word and 20-column budget. -/
theorem claim_C4_witness :
    2 ≤ (pyWrap (colsOf ⟨44, 52⟩ 20) (List.replicate 25 'b')).length :=
  (claim_C4_thm ⟨44, 52⟩ 20 (List.replicate 25 'b')).2
    (by decide) (by rw [cols_f44_20]; decide)

/-! ### Monotonicity machinery: the greedy count -/

/-- The number of chunks the greedy loop pops. -/
def greedyCount (w cur : ℕ) : List (List Char) → ℕ
  | [] => 0
  | c :: rest => if cur + c.length ≤ w then greedyCount w (cur + c.length) rest + 1 else 0

theorem greedyTake_eq_count (w : ℕ) :
    ∀ (l : List (List Char)) (cur : ℕ),
      greedyTake w cur l = (l.take (greedyCount w cur l), l.drop (greedyCount w cur l)) := by
  intro l
  induction l with
  | nil => intro cur; rfl
  | cons c rest ih =>
    intro cur
    by_cases h : cur + c.length ≤ w
    · simp only [greedyTake, greedyCount, if_pos h, ih (cur + c.length)]
      rfl
    · simp only [greedyTake, greedyCount, if_pos, if_neg h]
      rfl

theorem greedyCount_le_len (w : ℕ) :
    ∀ (l : List (List Char)) (cur : ℕ), greedyCount w cur l ≤ l.length := by
  intro l
  induction l with
  | nil => intro cur; exact le_rfl
  | cons c rest ih =>
    intro cur
    simp only [greedyCount]
    split
    · have := ih (cur + c.length)
      simp only [List.length_cons]
      omega
    · simp

/-- Greedy maximality: any prefix whose total fits the width is popped. -/
theorem greedyCount_max (w : ℕ) :
    ∀ (l : List (List Char)) (cur j : ℕ), j ≤ l.length →
      cur + sumLen (l.take j) ≤ w → j ≤ greedyCount w cur l := by
  intro l
  induction l with
  | nil =>
    intro cur j hj _
    simp only [List.length_nil, Nat.le_zero] at hj
    omega
  | cons c rest ih =>
    intro cur j hj hsum
    cases j with
    | zero => exact Nat.zero_le _
    | succ j =>
      have htake : (c :: rest).take (j + 1) = c :: rest.take j := rfl
      rw [htake, sumLen_cons] at hsum
      have hc : cur + c.length ≤ w := by
        have : 0 ≤ sumLen (rest.take j) := Nat.zero_le _
        omega
      simp only [greedyCount, if_pos hc]
      have hj' : j ≤ rest.length := by simpa using hj
      have := ih (cur + c.length) j hj' (by omega)
      omega

theorem greedyCount_pos (w : ℕ) (c : List Char) (rest : List (List Char))
    (h : c.length ≤ w) : 1 ≤ greedyCount w 0 (c :: rest) := by
  simp only [greedyCount, if_pos (show 0 + c.length ≤ w by omega)]
  omega

/-! ### Monotonicity machinery: suffixes and blank-adjacency -/

/-- No two adjacent chunks are both blank (whitespace runs produced by the
splitter are maximal). -/
def NoAdjBlank : List (List Char) → Prop
  | [] => True
  | [_] => True
  | a :: b :: t => (isBlankChunk a = false ∨ isBlankChunk b = false) ∧ NoAdjBlank (b :: t)

theorem noAdjBlank_tail : ∀ {l : List (List Char)}, NoAdjBlank l → NoAdjBlank l.tail := by
  intro l h
  match l with
  | [] => trivial
  | [_] => trivial
  | a :: b :: t => exact h.2

theorem noAdjBlank_drop (k : ℕ) {l : List (List Char)} (h : NoAdjBlank l) :
    NoAdjBlank (l.drop k) := by
  induction k generalizing l with
  | zero => exact h
  | succ k ih =>
    have := ih (noAdjBlank_tail h)
    rwa [List.drop_tail] at this

theorem suffix_eq_drop {α : Type} {x y : List α} (h : x <:+ y) :
    x = y.drop (y.length - x.length) := by
  obtain ⟨p, rfl⟩ := h
  simp [List.drop_append_eq_append_drop]

theorem noAdjBlank_suffix {x y : List (List Char)} (h : NoAdjBlank y) (hs : x <:+ y) :
    NoAdjBlank x := by
  rw [suffix_eq_drop hs]
  exact noAdjBlank_drop _ h

theorem drop_suffix_drop {α : Type} (l : List α) {a b : ℕ} (h : b ≤ a) :
    l.drop a <:+ l.drop b := by
  have : l.drop a = (l.drop b).drop (a - b) := by
    rw [List.drop_drop]
    congr 1
    omega
  rw [this]
  exact List.drop_suffix _ _

theorem suffix_tail_of_strict {α : Type} {x y : List α} (h : x <:+ y) (hne : x ≠ y) :
    x <:+ y.tail := by
  obtain ⟨p, rfl⟩ := h
  cases p with
  | nil => exact absurd rfl hne
  | cons a q => simp

/-! ### Monotonicity machinery: the leading-whitespace drop -/

theorem normC_false (s : List (List Char)) : normC false s = s := by
  cases s with
  | nil => rfl
  | cons c t => simp [normC]

theorem normC_suffix (b : Bool) (s : List (List Char)) : normC b s <:+ s := by
  cases s with
  | nil => exact List.suffix_rfl
  | cons c t =>
    simp only [normC]
    split
    · exact ⟨[c], rfl⟩
    · exact List.suffix_rfl

theorem normC_suffix_mono {x y : List (List Char)} (h : x <:+ y) :
    normC true x <:+ normC true y := by
  by_cases hxy : x = y
  · rw [hxy]
  · have h1 : normC true x <:+ x := normC_suffix true x
    have h2 : x <:+ y.tail := suffix_tail_of_strict h hxy
    have h3 : y.tail <:+ normC true y := by
      cases y with
      | nil => simp
      | cons c t =>
        simp only [normC]
        split
        · exact List.suffix_rfl
        · exact ⟨[c], rfl⟩
    exact (h1.trans h2).trans h3

/-- A state whose normalisation is empty emits nothing. -/
theorem wrapL_norm_nil (w fuel : ℕ) (b : Bool) (s : List (List Char))
    (h : normC b s = []) : wrapL w fuel b s = [] := by
  cases fuel with
  | zero => rfl
  | succ fuel =>
    cases s with
    | nil => rfl
    | cons c t =>
      have hi : iter1 w b (c :: t) = (none, []) := by
        simp only [iter1, h]
        rfl
      simp only [wrapL, hi]
      exact wrapL_nil w fuel b

theorem dropTrailingBlank_ne_of_head (c1 : List Char) (t : List (List Char))
    (hnb : isBlankChunk c1 = false) : dropTrailingBlank (c1 :: t) ≠ [] := by
  rcases dropTrailingBlank_cases (c1 :: t) with h | h
  · rw [h]
    simp
  · rw [h]
    cases t with
    | nil =>
      intro hfalse
      simp only [dropTrailingBlank] at h
      simp only [List.getLast?_singleton] at h
      rw [if_neg (by simp [hnb])] at h
      simp at h
    | cons u v =>
      have : (c1 :: u :: v).dropLast = c1 :: (u :: v).dropLast := rfl
      rw [this]
      simp

/-- When the normalised state starts with a nonblank chunk that fits the
width, the iteration emits a line and consumes exactly the greedy-count
prefix of the normalised state (the long-word handler cannot fire when
every chunk fits). -/
theorem iter1_emit (w : ℕ) (b : Bool) (s : List (List Char)) (c1 : List Char)
    (crest : List (List Char)) (hn : normC b s = c1 :: crest)
    (hnb : isBlankChunk c1 = false) (hfit : c1.length ≤ w)
    (hfits : ∀ ch ∈ normC b s, ch.length ≤ w) :
    ∃ L, iter1 w b s = (some L, (normC b s).drop (greedyCount w 0 (normC b s)))
      ∧ 1 ≤ greedyCount w 0 (normC b s) := by
  have hk1 : 1 ≤ greedyCount w 0 (normC b s) := by
    rw [hn]
    exact greedyCount_pos w c1 crest hfit
  have hg := greedyTake_eq_count w (normC b s) 0
  have hla : longAdjust w (greedyTake w 0 (normC b s)) = greedyTake w 0 (normC b s) := by
    rcases hd : (normC b s).drop (greedyCount w 0 (normC b s)) with _ | ⟨r0, rr⟩
    · rw [hg]
      simp only [longAdjust, hd]
    · rw [hg]
      simp only [longAdjust, hd]
      have hr0 : r0 ∈ normC b s := List.mem_of_mem_drop (by rw [hd]; simp)
      rw [if_neg (by have := hfits r0 hr0; omega)]
  have htake : (normC b s).take (greedyCount w 0 (normC b s))
      = c1 :: crest.take (greedyCount w 0 (normC b s) - 1) := by
    obtain ⟨k', hk'⟩ : ∃ k', greedyCount w 0 (normC b s) = k' + 1 :=
      ⟨greedyCount w 0 (normC b s) - 1, by omega⟩
    rw [hk', hn]
    simp
  have hne : dropTrailingBlank ((normC b s).take (greedyCount w 0 (normC b s))) ≠ [] := by
    rw [htake]
    exact dropTrailingBlank_ne_of_head c1 _ hnb
  have hemp : ¬ (dropTrailingBlank
      ((normC b s).take (greedyCount w 0 (normC b s)))).isEmpty = true := by
    simpa [List.isEmpty_iff] using hne
  have hg1 : (greedyTake w 0 (normC b s)).1
      = (normC b s).take (greedyCount w 0 (normC b s)) := by rw [hg]
  have hg2 : (greedyTake w 0 (normC b s)).2
      = (normC b s).drop (greedyCount w 0 (normC b s)) := by rw [hg]
  refine ⟨(dropTrailingBlank ((normC b s).take (greedyCount w 0 (normC b s)))).flatten, ?_, hk1⟩
  simp only [iter1]
  rw [hla, hg1, hg2, if_neg hemp]

/-- In a chunk list with no adjacent blanks, the head of the normalised
state is never blank. -/
theorem norm_head_nonblank (s0 : List (List Char)) (hna : NoAdjBlank s0)
    {s : List (List Char)} (hs : s <:+ s0) {c1 : List Char} {crest : List (List Char)}
    (hn : normC true s = c1 :: crest) : isBlankChunk c1 = false := by
  have hnas : NoAdjBlank s := noAdjBlank_suffix hna hs
  cases s with
  | nil => simp [normC] at hn
  | cons a t =>
    simp only [normC] at hn
    by_cases hb : (true && isBlankChunk a) = true
    · rw [if_pos hb] at hn
      have hb' : isBlankChunk a = true := by simpa using hb
      rw [hn] at hnas
      rcases hnas.1 with h | h
      · rw [hb'] at h
        exact absurd h (by simp)
      · exact h
    · rw [if_neg hb] at hn
      have ha : isBlankChunk a = false := by
        rcases Bool.eq_false_or_eq_true (isBlankChunk a) with h | h
        · exact absurd (by simp [h]) hb
        · exact h
      injection hn with h1 _
      rw [← h1]
      exact ha

theorem wrapL_cons_of_emit (w f : ℕ) (b : Bool) (s : List (List Char))
    (L : List Char) (s' : List (List Char)) (h : iter1 w b s = (some L, s'))
    (hne : s ≠ []) : wrapL w (f + 1) b s = L :: wrapL w f true s' := by
  obtain ⟨a, t, rfl⟩ : ∃ a t, s = a :: t := by
    cases s with
    | nil => exact absurd rfl hne
    | cons a t => exact ⟨a, t, rfl⟩
  simp only [wrapL, h]

/-- Core monotonicity: from a further-along state at a wider width, the
loop emits no more lines.  Both states are suffixes of a master list with
no adjacent blank chunks whose every chunk fits the smaller width, and the
state at the wider width is normalised-further along. -/
theorem wrapL_mono_core (w1 w2 : ℕ) (hw12 : w1 ≤ w2)
    (s0 : List (List Char)) (hna : NoAdjBlank s0)
    (hfits : ∀ ch ∈ s0, ch.length ≤ w1) :
    ∀ (n : ℕ) (s1 s2 : List (List Char)), s1.length ≤ n →
      s1 <:+ s0 → s2 <:+ s0 → normC true s2 <:+ normC true s1 →
      ∀ (f1 f2 : ℕ), measChunks s1 < f1 → measChunks s2 < f2 →
      (wrapL w2 f2 true s2).length ≤ (wrapL w1 f1 true s1).length := by
  intro n
  induction n with
  | zero =>
    intro s1 s2 hlen hs1 hs2 hnorm f1 f2 hf1 hf2
    have h1 : s1 = [] := List.length_eq_zero.mp (by omega)
    subst h1
    have h2 : normC true s2 = [] := by
      have h3 : normC true s2 <:+ ([] : List (List Char)) := hnorm
      exact List.suffix_nil.mp h3
    rw [wrapL_norm_nil w2 f2 true s2 h2]
    simp
  | succ n ih =>
    intro s1 s2 hlen hs1 hs2 hnorm f1 f2 hf1 hf2
    rcases hn2 : normC true s2 with _ | ⟨c2, crest2⟩
    · rw [wrapL_norm_nil w2 f2 true s2 hn2]
      simp
    · rcases hn1 : normC true s1 with _ | ⟨c1, crest1⟩
      · rw [hn1, hn2] at hnorm
        exact absurd (List.suffix_nil.mp hnorm) (by simp)
      · have hs1ne : s1 ≠ [] := by
          intro h
          rw [h] at hn1
          simp [normC] at hn1
        have hs2ne : s2 ≠ [] := by
          intro h
          rw [h] at hn2
          simp [normC] at hn2
        have hnb1 : isBlankChunk c1 = false := norm_head_nonblank s0 hna hs1 hn1
        have hnb2 : isBlankChunk c2 = false := norm_head_nonblank s0 hna hs2 hn2
        have hfits1 : ∀ ch ∈ normC true s1, ch.length ≤ w1 := fun ch hch =>
          hfits ch (hs1.subset ((normC_suffix true s1).subset hch))
        have hfits2w1 : ∀ ch ∈ normC true s2, ch.length ≤ w1 := fun ch hch =>
          hfits ch (hs2.subset ((normC_suffix true s2).subset hch))
        have hfits2 : ∀ ch ∈ normC true s2, ch.length ≤ w2 := fun ch hch =>
          le_trans (hfits2w1 ch hch) hw12
        have hfit1 : c1.length ≤ w1 := hfits1 c1 (by rw [hn1]; simp)
        have hfit2 : c2.length ≤ w2 := hfits2 c2 (by rw [hn2]; simp)
        obtain ⟨L1, hi1, hk1⟩ := iter1_emit w1 true s1 c1 crest1 hn1 hnb1 hfit1 hfits1
        obtain ⟨L2, hi2, hk2⟩ := iter1_emit w2 true s2 c2 crest2 hn2 hnb2 hfit2 hfits2
        have hdropj : normC true s2
            = (normC true s1).drop ((normC true s1).length - (normC true s2).length) :=
          suffix_eq_drop hnorm
        have hk1len : greedyCount w1 0 (normC true s1) ≤ (normC true s1).length :=
          greedyCount_le_len w1 _ 0
        have hjk : greedyCount w1 0 (normC true s1)
            ≤ ((normC true s1).length - (normC true s2).length)
              + greedyCount w2 0 (normC true s2) := by
          set j := (normC true s1).length - (normC true s2).length with hjdef
          set k1 := greedyCount w1 0 (normC true s1) with hk1def
          by_cases hcase : k1 ≤ j
          · omega
          · have hjlt : j < k1 := by omega
            have hs1sum : sumLen ((normC true s1).take k1) ≤ w1 := by
              have hfs := greedyTake_fst_sum w1 (normC true s1) 0
              rw [greedyTake_eq_count w1 (normC true s1) 0] at hfs
              rcases hfs with h | h
              · rw [hn1] at h
                rw [List.take_eq_nil_iff] at h
                rcases h with h | h
                · rw [hn1] at hk1def
                  omega
                · simp at h
              · rw [← hk1def] at h
                have h' : 0 + sumLen ((normC true s1).take k1) ≤ w1 := h
                omega
            have htakeadd : (normC true s1).take k1
                = (normC true s1).take j ++ ((normC true s1).drop j).take (k1 - j) := by
              have hsplit : j + (k1 - j) = k1 := by omega
              rw [← hsplit, List.take_add]
              have h2 : j + (k1 - j) - j = k1 - j := by omega
              rw [h2]
            have hsum2 : sumLen (((normC true s1).drop j).take (k1 - j)) ≤ w1 := by
              rw [htakeadd, sumLen_append] at hs1sum
              omega
            have hlen2 : k1 - j ≤ ((normC true s1).drop j).length := by
              rw [List.length_drop]
              omega
            have hmax := greedyCount_max w2 ((normC true s1).drop j) 0 (k1 - j) hlen2
              (by omega)
            rw [← hdropj] at hmax
            omega
        have hrest21 : (normC true s2).drop (greedyCount w2 0 (normC true s2))
            <:+ (normC true s1).drop (greedyCount w1 0 (normC true s1)) := by
          set k2 := greedyCount w2 0 (normC true s2) with hk2def
          rw [hdropj, List.drop_drop]
          exact drop_suffix_drop _ (by omega)
        have hrest1s0 : (normC true s1).drop (greedyCount w1 0 (normC true s1)) <:+ s0 :=
          ((List.drop_suffix _ _).trans (normC_suffix true s1)).trans hs1
        have hrest2s0 : (normC true s2).drop (greedyCount w2 0 (normC true s2)) <:+ s0 :=
          ((List.drop_suffix _ _).trans (normC_suffix true s2)).trans hs2
        have hlen1' : ((normC true s1).drop (greedyCount w1 0 (normC true s1))).length ≤ n := by
          rw [List.length_drop]
          have hnl : (normC true s1).length ≤ s1.length := (normC_suffix true s1).length_le
          omega
        have hm1 : measChunks ((normC true s1).drop (greedyCount w1 0 (normC true s1)))
            < measChunks s1 := by
          have h := iter1_meas w1 true s1 hs1ne
          rw [hi1] at h
          exact h
        have hm2 : measChunks ((normC true s2).drop (greedyCount w2 0 (normC true s2)))
            < measChunks s2 := by
          have h := iter1_meas w2 true s2 hs2ne
          rw [hi2] at h
          exact h
        obtain ⟨f1', rfl⟩ : ∃ f1', f1 = f1' + 1 := ⟨f1 - 1, by omega⟩
        obtain ⟨f2', rfl⟩ : ∃ f2', f2 = f2' + 1 := ⟨f2 - 1, by omega⟩
        rw [wrapL_cons_of_emit w1 f1' true s1 L1 _ hi1 hs1ne,
            wrapL_cons_of_emit w2 f2' true s2 L2 _ hi2 hs2ne]
        simp only [List.length_cons]
        have hcore := ih ((normC true s1).drop (greedyCount w1 0 (normC true s1)))
          ((normC true s2).drop (greedyCount w2 0 (normC true s2)))
          hlen1' hrest1s0 hrest2s0 (normC_suffix_mono hrest21) f1' f2'
          (by omega) (by omega)
        omega

/-! ### Monotonicity in the width budget: from the loop to the engine -/

theorem greedyCount_mono_w (w1 w2 : ℕ) (hw : w1 ≤ w2) (l : List (List Char)) :
    greedyCount w1 0 l ≤ greedyCount w2 0 l := by
  have hfs := greedyTake_fst_sum w1 l 0
  rw [greedyTake_eq_count w1 l 0] at hfs
  have hlen := greedyCount_le_len w1 l 0
  rcases hfs with hempty | hsum
  · have he : l.take (greedyCount w1 0 l) = [] := hempty
    rw [List.take_eq_nil_iff] at he
    rcases he with h0 | h0
    · rw [h0]
      exact Nat.zero_le _
    · subst h0
      simp [greedyCount]
  · have h' : 0 + sumLen (l.take (greedyCount w1 0 l)) ≤ w1 := hsum
    exact greedyCount_max w2 l 0 (greedyCount w1 0 l) hlen (by omega)

/-- Top-level monotonicity of `_wrap_chunks` in the width: starting from the
initial state (no line emitted yet) whose head chunk is non-blank, whose
chunks all fit the smaller width and which has no adjacent blank chunks, the
wider width never produces more lines. -/
theorem wrapL_mono_top (w1 w2 : ℕ) (hw12 : w1 ≤ w2)
    (s0 : List (List Char)) (hna : NoAdjBlank s0)
    (hfits : ∀ ch ∈ s0, ch.length ≤ w1)
    (hhead : ∀ c t, s0 = c :: t → isBlankChunk c = false)
    (f1 f2 : ℕ) (hf1 : measChunks s0 < f1) (hf2 : measChunks s0 < f2) :
    (wrapL w2 f2 false s0).length ≤ (wrapL w1 f1 false s0).length := by
  cases s0 with
  | nil =>
    rw [wrapL_norm_nil w1 f1 false [] rfl, wrapL_norm_nil w2 f2 false [] rfl]
  | cons c t =>
    have hnb : isBlankChunk c = false := hhead c t rfl
    have hnf : normC false (c :: t) = c :: t := by simp [normC]
    have hfits1 : ∀ ch ∈ normC false (c :: t), ch.length ≤ w1 := by
      rw [hnf]
      exact hfits
    have hfits2 : ∀ ch ∈ normC false (c :: t), ch.length ≤ w2 := fun ch h =>
      le_trans (hfits1 ch h) hw12
    have hfit1 : c.length ≤ w1 := hfits c (by simp)
    have hfit2 : c.length ≤ w2 := le_trans hfit1 hw12
    obtain ⟨L1, hi1, hk1⟩ := iter1_emit w1 false (c :: t) c t hnf hnb hfit1 hfits1
    obtain ⟨L2, hi2, hk2⟩ := iter1_emit w2 false (c :: t) c t hnf hnb hfit2 hfits2
    rw [hnf] at hi1 hi2
    have hm1 : measChunks ((c :: t).drop (greedyCount w1 0 (c :: t)))
        < measChunks (c :: t) := by
      have h := iter1_meas w1 false (c :: t) (by simp)
      rw [hi1] at h
      exact h
    have hm2 : measChunks ((c :: t).drop (greedyCount w2 0 (c :: t)))
        < measChunks (c :: t) := by
      have h := iter1_meas w2 false (c :: t) (by simp)
      rw [hi2] at h
      exact h
    have hk12 : greedyCount w1 0 (c :: t) ≤ greedyCount w2 0 (c :: t) :=
      greedyCount_mono_w w1 w2 hw12 (c :: t)
    have hsuf : (c :: t).drop (greedyCount w2 0 (c :: t))
        <:+ (c :: t).drop (greedyCount w1 0 (c :: t)) :=
      drop_suffix_drop (c :: t) hk12
    obtain ⟨f1', rfl⟩ : ∃ f1', f1 = f1' + 1 := ⟨f1 - 1, by omega⟩
    obtain ⟨f2', rfl⟩ : ∃ f2', f2 = f2' + 1 := ⟨f2 - 1, by omega⟩
    rw [wrapL_cons_of_emit w1 f1' false (c :: t) L1 _ hi1 (by simp),
        wrapL_cons_of_emit w2 f2' false (c :: t) L2 _ hi2 (by simp)]
    simp only [List.length_cons]
    have hcore := wrapL_mono_core w1 w2 hw12 (c :: t) hna hfits
      ((c :: t).drop (greedyCount w1 0 (c :: t))).length
      ((c :: t).drop (greedyCount w1 0 (c :: t)))
      ((c :: t).drop (greedyCount w2 0 (c :: t)))
      le_rfl (List.drop_suffix _ _) (List.drop_suffix _ _)
      (normC_suffix_mono hsuf) f1' f2' (by omega) (by omega)
    omega

/-! ### Structure of the chunk stream produced by the splitter -/

theorem splitAux_eq_nil (fuel : ℕ) (revPre : List Char) :
    splitAux fuel revPre [] = [] := by
  cases fuel <;> rfl

/-- After a maximal whitespace run the remaining input is empty or starts
with a non-whitespace character. -/
theorem takeWsRun_snd : ∀ s : List Char,
    (takeWsRun s).2 = [] ∨ ∃ d ds, (takeWsRun s).2 = d :: ds ∧ pyWs d = false := by
  intro s
  induction s with
  | nil =>
    left
    rfl
  | cons c rs ih =>
    by_cases hc : pyWs c = true
    · rcases ih with h | h
      · left
        simp only [takeWsRun]
        rw [if_pos hc]
        exact h
      · right
        obtain ⟨d, ds, hd, hdw⟩ := h
        refine ⟨d, ds, ?_, hdw⟩
        simp only [takeWsRun]
        rw [if_pos hc]
        exact hd
    · rw [Bool.not_eq_true] at hc
      right
      refine ⟨c, rs, ?_, hc⟩
      simp only [takeWsRun]
      rw [if_neg (by simp [hc])]

/-- A reversed prefix that contains a non-whitespace character yields a
non-blank chunk. -/
theorem isBlank_rev_take (revAll : List Char) (cnt : ℕ)
    (h : ∃ d ∈ revAll.take cnt, pyWs d = false) :
    isBlankChunk (revAll.take cnt).reverse = false := by
  obtain ⟨d, hd, hdw⟩ := h
  rw [Bool.eq_false_iff]
  intro hall
  rw [isBlankChunk, List.all_eq_true] at hall
  have h2 := hall d (by rw [List.mem_reverse]; exact hd)
  rw [hdw] at h2
  exact Bool.false_ne_true h2

theorem isBlank_cons_false (c : Char) (l : List Char) (hc : pyWs c = false) :
    isBlankChunk (c :: l) = false := by
  simp [isBlankChunk, hc]

/-- A word chunk contains the non-whitespace character that opened it. -/
theorem wordScan_nonblank : ∀ (rs revAll : List Char) (cnt : ℕ),
    (∃ d ∈ revAll.take cnt, pyWs d = false) →
    isBlankChunk (wordScan revAll cnt rs).1 = false := by
  intro rs
  induction rs with
  | nil =>
    intro revAll cnt h
    exact isBlank_rev_take revAll cnt h
  | cons c rs ih =>
    intro revAll cnt h
    obtain ⟨d, hd, hdw⟩ := h
    simp only [wordScan]
    by_cases hc : pyWs c = true
    · rw [if_pos hc]
      exact isBlank_rev_take revAll cnt ⟨d, hd, hdw⟩
    · rw [if_neg hc]
      by_cases h2 : (c == '-' && hyBehind revAll && hyAhead rs) = true
      · rw [if_pos h2]
        refine isBlank_rev_take (c :: revAll) (cnt + 1) ⟨d, ?_, hdw⟩
        rw [List.take_succ_cons]
        exact List.mem_cons_of_mem c hd
      · rw [if_neg h2]
        by_cases h3 : (wpChar (revAll.headD ' ') && emAhead (c :: rs)) = true
        · rw [if_pos h3]
          exact isBlank_rev_take revAll cnt ⟨d, hd, hdw⟩
        · rw [if_neg h3]
          refine ih (c :: revAll) (cnt + 1) ⟨d, ?_, hdw⟩
          rw [List.take_succ_cons]
          exact List.mem_cons_of_mem c hd

/-- The em-dash stop only fires on a run of at least two dashes. -/
theorem emAhead_dashRun {rest : List Char} (h : emAhead rest = true) :
    2 ≤ dashRun rest := by
  simp only [emAhead, Bool.and_eq_true, decide_eq_true_eq] at h
  exact h.1

/-- A chunk cut from a non-whitespace head character is non-blank. -/
theorem splitAux_first_nonblank (fuel : ℕ) (revPre : List Char) (c : Char)
    (rs : List Char) (hc : pyWs c = false) :
    ∀ x l', splitAux fuel revPre (c :: rs) = x :: l' → isBlankChunk x = false := by
  intro x l' hx
  cases fuel with
  | zero => exact absurd hx (by simp [splitAux])
  | succ f =>
    simp only [splitAux] at hx
    rw [if_neg (by simp [hc])] at hx
    by_cases h2 : (wpChar (revPre.headD ' ') && emAhead (c :: rs)) = true
    · rw [if_pos h2] at hx
      have hem : emAhead (c :: rs) = true := by
        simp only [Bool.and_eq_true] at h2
        exact h2.2
      have hr := emAhead_dashRun hem
      obtain ⟨r', hr'⟩ : ∃ r', dashRun (c :: rs) = r' + 1 :=
        ⟨dashRun (c :: rs) - 1, by omega⟩
      rw [List.cons.injEq] at hx
      rw [← hx.1, hr', List.take_succ_cons]
      exact isBlank_cons_false c _ hc
    · rw [if_neg h2] at hx
      rw [List.cons.injEq] at hx
      rw [← hx.1]
      refine wordScan_nonblank rs (c :: revPre) 1 ⟨c, ?_, hc⟩
      simp

theorem noAdjBlank_cons_left {a : List Char} {l : List (List Char)}
    (ha : isBlankChunk a = false) (hl : NoAdjBlank l) : NoAdjBlank (a :: l) := by
  cases l with
  | nil => trivial
  | cons b t => exact ⟨Or.inl ha, hl⟩

theorem noAdjBlank_cons_head {a : List Char} {l : List (List Char)}
    (hl : NoAdjBlank l) (h : ∀ x t, l = x :: t → isBlankChunk x = false) :
    NoAdjBlank (a :: l) := by
  cases l with
  | nil => trivial
  | cons b t => exact ⟨Or.inr (h b t rfl), hl⟩

/-- The splitter never produces two adjacent blank chunks: whitespace runs
are maximal, and every other alternative starts with a non-whitespace
character. -/
theorem splitAux_noAdjBlank : ∀ (fuel : ℕ) (revPre s : List Char),
    NoAdjBlank (splitAux fuel revPre s) := by
  intro fuel
  induction fuel with
  | zero =>
    intro revPre s
    trivial
  | succ f ih =>
    intro revPre s
    cases s with
    | nil => trivial
    | cons c rs =>
      by_cases hc : pyWs c = true
      · have heq : splitAux (f + 1) revPre (c :: rs)
            = (takeWsRun (c :: rs)).1
              :: splitAux f ((takeWsRun (c :: rs)).1.reverse ++ revPre)
                  (takeWsRun (c :: rs)).2 := by
          simp only [splitAux]
          rw [if_pos hc]
        rw [heq]
        rcases takeWsRun_snd (c :: rs) with h | h
        · rw [h, splitAux_eq_nil]
          trivial
        · obtain ⟨d, ds, hd, hdw⟩ := h
          refine noAdjBlank_cons_head (ih _ _) ?_
          intro x t hx
          rw [hd] at hx
          exact splitAux_first_nonblank f _ d ds hdw x t hx
      · rw [Bool.not_eq_true] at hc
        by_cases h2 : (wpChar (revPre.headD ' ') && emAhead (c :: rs)) = true
        · have heq : splitAux (f + 1) revPre (c :: rs)
              = ((c :: rs).take (dashRun (c :: rs)))
                :: splitAux f (((c :: rs).take (dashRun (c :: rs))).reverse ++ revPre)
                    ((c :: rs).drop (dashRun (c :: rs))) := by
            simp only [splitAux]
            rw [if_neg (by simp [hc]), if_pos h2]
          rw [heq]
          refine noAdjBlank_cons_left ?_ (ih _ _)
          have hem : emAhead (c :: rs) = true := by
            simp only [Bool.and_eq_true] at h2
            exact h2.2
          have hr := emAhead_dashRun hem
          obtain ⟨r', hr'⟩ : ∃ r', dashRun (c :: rs) = r' + 1 :=
            ⟨dashRun (c :: rs) - 1, by omega⟩
          rw [hr', List.take_succ_cons]
          exact isBlank_cons_false c _ hc
        · have heq : splitAux (f + 1) revPre (c :: rs)
              = (wordScan (c :: revPre) 1 rs).1
                :: splitAux f ((wordScan (c :: revPre) 1 rs).1.reverse ++ revPre)
                    (wordScan (c :: revPre) 1 rs).2 := by
            simp only [splitAux]
            rw [if_neg (by simp [hc]), if_neg h2]
          rw [heq]
          refine noAdjBlank_cons_left ?_ (ih _ _)
          exact wordScan_nonblank rs (c :: revPre) 1 ⟨c, by simp, hc⟩

theorem splitChunks_noAdjBlank (s : List Char) : NoAdjBlank (splitChunks s) :=
  splitAux_noAdjBlank (s.length + 1) [] s

theorem splitChunks_first_nonblank (c : Char) (rs : List Char) (hc : pyWs c = false) :
    ∀ x l', splitChunks (c :: rs) = x :: l' → isBlankChunk x = false :=
  splitAux_first_nonblank ((c :: rs).length + 1) [] c rs hc

/-- The head of the paragraph after `munge` is non-whitespace (true of the
empty paragraph). -/
def headNonWs : List Char → Bool
  | [] => true
  | c :: _ => !pyWs c

/-- `textwrap.wrap` is antitone in line count as the width grows, provided
every chunk fits the smaller width and the paragraph does not begin with
whitespace. -/
theorem pyWrap_mono (w1 w2 : ℕ) (hw : w1 ≤ w2) (p : List Char)
    (hfits : ∀ ch ∈ splitChunks (munge p), ch.length ≤ w1)
    (hhead : headNonWs (munge p) = true) :
    (pyWrap w2 p).length ≤ (pyWrap w1 p).length := by
  simp only [pyWrap]
  refine wrapL_mono_top w1 w2 hw _ (splitChunks_noAdjBlank _) hfits ?_ _ _
    (by omega) (by omega)
  intro c t hct
  rcases hm : munge p with _ | ⟨d, ds⟩
  · rw [hm] at hct
    exact absurd hct (by simp [splitChunks, splitAux])
  · rw [hm] at hct hhead
    have hd : pyWs d = false := by
      simp only [headNonWs, Bool.not_eq_eq_eq_not, Bool.not_true] at hhead
      exact hhead
    exact splitChunks_first_nonblank d ds hd c t hct

theorem ratTrunc_mono {q1 q2 : ℚ} (h : q1 ≤ q2) : ratTrunc q1 ≤ ratTrunc q2 := by
  rw [ratTrunc, ratTrunc]
  by_cases h1 : 0 ≤ q1
  · rw [if_pos h1, if_pos (le_trans h1 h)]
    exact Int.floor_le_floor h
  · rw [if_neg h1]
    by_cases h2 : 0 ≤ q2
    · rw [if_pos h2]
      have hc : ⌈q1⌉ ≤ 0 := Int.ceil_le.mpr (by exact_mod_cast le_of_lt (lt_of_not_le h1))
      have hf : (0 : ℤ) ≤ ⌊q2⌋ := Int.le_floor.mpr (by exact_mod_cast h2)
      omega
    · rw [if_neg h2]
      exact Int.ceil_le_ceil h

theorem avgCharPx_pos (f : Font) : 0 < avgCharPx f :=
  lt_of_lt_of_le one_pos (le_max_right _ 1)

/-- The column budget is monotone in `max_width_px`. -/
theorem colsOf_mono (f : Font) {mw1 mw2 : ℤ} (h : mw1 ≤ mw2) :
    colsOf f mw1 ≤ colsOf f mw2 := by
  rw [colsOf, colsOf]
  have hq : (mw1 : ℚ) / avgCharPx f ≤ (mw2 : ℚ) / avgCharPx f :=
    (div_le_div_iff_of_pos_right (avgCharPx_pos f)).mpr (by exact_mod_cast h)
  exact Int.toNat_le_toNat (max_le_max (ratTrunc_mono hq) le_rfl)

/-- **C6** counterexample (refuting the claim as stated): for the fixed
font ⟨44, 52⟩ and the paragraph `"a " ++ "b"*26 ++ " a"`, widening the
budget from `max_width_px = 25` (25 columns) to `26` (26 columns) increases
the number of drawn lines from 2 to 3: at 25 columns the 26-character word
is long and is sliced into the first line by `break_long_words`, while at
26 columns it is no longer long and moves whole to a line of its own. -/
theorem claim_C6_counterexample :
    (25 : ℤ) ≤ 26 ∧
    (drawWrapped ⟨44, 52⟩ 0 0 ('a' :: ' ' :: (List.replicate 26 'b' ++ [' ', 'a']))
        (0, 0, 0) 25 (1 / 5)).1.length
      < (drawWrapped ⟨44, 52⟩ 0 0 ('a' :: ' ' :: (List.replicate 26 'b' ++ [' ', 'a']))
        (0, 0, 0) 26 (1 / 5)).1.length := by
  constructor
  · decide
  · simp only [drawWrapped, lineH_f44_02, cols_f44_25, cols_f44_26]
    decide

/-- **C6** (corrected): increasing `max_width_px` for fixed font and text
can increase the number of wrapped lines (`claim_C6_counterexample`); the
monotonicity does hold under the amended hypotheses that every chunk of
every non-blank paragraph fits the smaller column budget (no long-word
slicing) and that no paragraph begins with whitespace after whitespace
munging: then for `mw1 ≤ mw2` the engine draws at most as many lines at
budget `mw2` as at budget `mw1`. -/
theorem claim_C6_thm (f : Font) (x y : ℤ) (color : ℤ × ℤ × ℤ) (ls : ℚ)
    (text : List Char) (mw1 mw2 : ℤ) (hmw : mw1 ≤ mw2)
    (hfit : ∀ p ∈ splitNl text, isBlankPara p = false →
      (∀ ch ∈ splitChunks (munge p), ch.length ≤ colsOf f mw1)
        ∧ headNonWs (munge p) = true) :
    (drawWrapped f x y text color mw2 ls).1.length
      ≤ (drawWrapped f x y text color mw1 ls).1.length := by
  simp only [drawWrapped]
  rw [paraLoop_fst_len, paraLoop_fst_len, lineCount, lineCount]
  apply List.sum_le_sum
  intro p hp
  dsimp only
  by_cases hb : isBlankPara p = true
  · rw [if_pos hb, if_pos hb]
  · rw [Bool.not_eq_true] at hb
    rw [if_neg (by simp [hb]), if_neg (by simp [hb])]
    obtain ⟨h1, h2⟩ := hfit p hp hb
    exact pyWrap_mono (colsOf f mw1) (colsOf f mw2) (colsOf_mono f hmw) p h1 h2

/-- Closed witness for `claim_C6_thm`: font ⟨44, 52⟩, text "hi", budgets
20 ≤ 2000. -/
theorem claim_C6_witness :
    (drawWrapped ⟨44, 52⟩ 0 0 ['h', 'i'] (0, 0, 0) 2000 (1 / 5)).1.length
      ≤ (drawWrapped ⟨44, 52⟩ 0 0 ['h', 'i'] (0, 0, 0) 20 (1 / 5)).1.length :=
  claim_C6_thm ⟨44, 52⟩ 0 0 (0, 0, 0) (1 / 5) ['h', 'i'] 20 2000 (by decide)
    (by simp only [cols_f44_20]; decide)

end AltesDokument
